import Mathlib

/-!
Verification development for the `cataclysm` HTTP/WebSocket server framework.

Rust strings are modelled as `List Char` (cuts in the source always happen at
character boundaries, so character indices are faithful to the byte indices
used by `char_indices`), and byte buffers as `List Nat` with every element
below 256.
-/

set_option maxHeartbeats 1000000

namespace Cataclysm

/-! ### Path tokenizer (`Tokenizable`, src/cataclysm/src/branch.rs lines 941-979)

The Rust implementation walks the pairs of adjacent characters
`((i, c), (i+1, d))` of the string and cuts at `d` whenever `d = '/'` and
`c ≠ '\\'`; consequently a `'/'` at position 0 is never a cut point.  After a
cut at position `i`, scanning resumes with the pair `((i, '/'), (i+1, _))`,
so the character preceding the next candidate is the `'/'` itself.  The
recursions below carry that preceding character (`prev`) explicitly, which is
the same traversal written as structural recursion.
-/

/-- One step of `tokenize`: `prev` is the character immediately before the
head of the remaining list, `acc` the (reversed) characters of the token
under construction.  At the end of the input the pending token is emitted
only when non-empty, mirroring the `if prev_pos != r.len()` guard of the
source. -/
def tokenizeAux (prev : Char) (acc : List Char) : List Char → List (List Char)
  | [] => if acc.isEmpty then [] else [acc.reverse]
  | c :: rest =>
    if c = '/' ∧ prev ≠ '\\' then
      acc.reverse :: tokenizeAux c [] rest
    else
      tokenizeAux c (c :: acc) rest

/-- `Tokenizable::tokenize`: split on every unescaped `'/'` that is not the
first character; the first character can never be a cut point because the
pair iterator starts at position 1. -/
def tokenize : List Char → List (List Char)
  | [] => []
  | c :: rest => tokenizeAux c [c] rest

/-- Scanning part of `tokenize_once`: find the first cut point, returning the
characters before it and the remainder after the `'/'`. -/
def tokenizeOnceAux (prev : Char) : List Char → Option (List Char × List Char)
  | [] => none
  | c :: rest =>
    if c = '/' ∧ prev ≠ '\\' then
      some ([], rest)
    else
      match tokenizeOnceAux c rest with
      | some (tok, r) => some (c :: tok, r)
      | none => none

/-- `Tokenizable::tokenize_once`: like `split_once("/")` but skipping escaped
slashes; returns `none` when no cut point exists.  As in `tokenize`, the
first character is never a cut point. -/
def tokenizeOnce : List Char → Option (List Char × List Char)
  | [] => none
  | c :: rest =>
    match tokenizeOnceAux c rest with
    | some (tok, r) => some (c :: tok, r)
    | none => none

/-- `str::trim_start_matches("/")`: drop every leading slash. -/
def trimStartSlashes (l : List Char) : List Char := l.dropWhile (· = '/')

/-! Traversal lemmas: walking a slash-free block `t` leaves both scanners in
the state whose preceding character is the last character of `t`. -/

/-- The last character of a backslash-free block is not a backslash. -/
theorem getLastD_ne_backslash (t : List Char) (c : Char) (hb : '\\' ∉ t)
    (hc : c ≠ '\\') : t.getLastD c ≠ '\\' := by
  cases t with
  | nil => simpa [List.getLastD] using hc
  | cons d t'' =>
    intro h
    refine hb ?_
    have he : (d :: t'').getLastD c = (d :: t'').getLast (by simp) := by
      simp [List.getLastD_eq_getLast?, List.getLast?_eq_getLast]
    rw [he] at h
    exact h ▸ List.getLast_mem (by simp)

theorem tokenizeAux_through (t : List Char) (prev : Char) (acc l : List Char)
    (hs : '/' ∉ t) :
    tokenizeAux prev acc (t ++ l) = tokenizeAux (t.getLastD prev) (t.reverse ++ acc) l := by
  induction t generalizing prev acc with
  | nil => simp [List.getLastD]
  | cons c t' ih =>
    have hc : c ≠ '/' := fun h => hs (h ▸ List.mem_cons_self c t')
    have hs' : '/' ∉ t' := fun h => hs (List.mem_cons_of_mem c h)
    simp only [List.cons_append, tokenizeAux]
    rw [if_neg (by tauto)]
    simp only [List.append_eq]
    rw [ih c (c :: acc) hs']
    simp [List.getLast?_cons, List.getLastD_eq_getLast?]

theorem tokenizeOnceAux_through (t : List Char) (prev : Char) (l : List Char)
    (hs : '/' ∉ t) :
    tokenizeOnceAux prev (t ++ l) =
      (tokenizeOnceAux (t.getLastD prev) l).map (fun p => (t ++ p.1, p.2)) := by
  induction t generalizing prev with
  | nil =>
    simp only [List.nil_append, List.getLastD]
    cases tokenizeOnceAux prev l <;> simp
  | cons c t' ih =>
    have hc : c ≠ '/' := fun h => hs (h ▸ List.mem_cons_self c t')
    have hs' : '/' ∉ t' := fun h => hs (List.mem_cons_of_mem c h)
    simp only [List.cons_append, tokenizeOnceAux]
    rw [if_neg (by tauto)]
    simp only [List.append_eq]
    rw [ih c hs']
    cases h : tokenizeOnceAux (t'.getLastD c) l <;>
      simp_all [List.getLast?_cons, List.getLastD_eq_getLast?]

/-- A token followed by an unescaped slash is split off by `tokenize_once`. -/
theorem tokenizeOnce_append (tok rest : List Char) (hne : tok ≠ [])
    (hs : '/' ∉ tok) (hb : '\\' ∉ tok) :
    tokenizeOnce (tok ++ '/' :: rest) = some (tok, rest) := by
  match tok, hne with
  | c :: t', _ =>
    have hc : c ≠ '\\' := fun h => hb (h ▸ List.mem_cons_self c t')
    have hs' : '/' ∉ t' := fun h => hs (List.mem_cons_of_mem c h)
    have hb' : '\\' ∉ t' := fun h => hb (List.mem_cons_of_mem c h)
    have hlast : (t'.getLastD c) ≠ '\\' := getLastD_ne_backslash t' c hb' hc
    show tokenizeOnce ((c :: t') ++ '/' :: rest) = some (c :: t', rest)
    simp only [List.cons_append, tokenizeOnce]
    rw [tokenizeOnceAux_through t' c ('/' :: rest) hs']
    have hlast2 : t'.getLast?.getD c ≠ '\\' := by
      simpa [List.getLastD_eq_getLast?] using hlast
    simp [tokenizeOnceAux, hlast2]

/-- Without any slash there is no cut point at all for the `once` scanner. -/
theorem tokenizeOnceAux_noSlash (l : List Char) (prev : Char) (hs : '/' ∉ l) :
    tokenizeOnceAux prev l = none := by
  have := tokenizeOnceAux_through l prev [] hs
  simpa [tokenizeOnceAux] using this

/-- A slash-free suffix is consumed whole by `tokenizeAux`, emitting the
pending token exactly when it is non-empty. -/
theorem tokenizeAux_noSlash (l : List Char) (prev : Char) (acc : List Char)
    (hs : '/' ∉ l) :
    tokenizeAux prev acc l =
      if (acc.reverse ++ l).isEmpty then [] else [acc.reverse ++ l] := by
  have := tokenizeAux_through l prev acc [] hs
  simp only [List.append_nil] at this
  rw [this]
  simp only [tokenizeAux]
  by_cases h : (l.reverse ++ acc) = []
  · have h2 : acc.reverse ++ l = [] := by
      have := congrArg List.reverse h
      simpa using this
    simp [h, h2]
  · have h2 : acc.reverse ++ l ≠ [] := by
      intro hq
      exact h (by simpa using congrArg List.reverse hq)
    simp only [List.isEmpty_iff]
    rw [if_neg h, if_neg h2]
    have : (l.reverse ++ acc).reverse = acc.reverse ++ l := by simp
    rw [this]

/-- A token followed by an unescaped slash is emitted by `tokenizeAux` and the
scan continues behind the slash. -/
theorem tokenizeAux_append (tok : List Char) (prev : Char) (acc rest : List Char)
    (hs : '/' ∉ tok) (hb : '\\' ∉ tok) (hprev : prev ≠ '\\') :
    tokenizeAux prev acc (tok ++ '/' :: rest) =
      (acc.reverse ++ tok) :: tokenizeAux '/' [] rest := by
  rw [tokenizeAux_through tok prev acc ('/' :: rest) hs]
  have hlast : (tok.getLastD prev) ≠ '\\' := getLastD_ne_backslash tok prev hb hprev
  have hlast2 : tok.getLast?.getD prev ≠ '\\' := by
    simpa [List.getLastD_eq_getLast?] using hlast
  simp [tokenizeAux, hlast2]

/-- Without any slash the whole input is one token (or no token at all when
the input is empty). -/
theorem tokenize_noSlash (l : List Char) (hne : l ≠ []) (hs : '/' ∉ l) :
    tokenize l = [l] := by
  match l, hne with
  | c :: rest, _ =>
    have hs' : '/' ∉ rest := fun h => hs (List.mem_cons_of_mem c h)
    show tokenize (c :: rest) = [c :: rest]
    simp only [tokenize]
    rw [tokenizeAux_noSlash rest c [c] hs']
    simp

/-- Continuing a scan right behind a slash over a slash-free remainder yields
that remainder as the final token (no empty tail token when it is empty). -/
theorem tokenizeAux_slashState_noSlash (l : List Char) (hs : '/' ∉ l) :
    tokenizeAux '/' [] l = if l.isEmpty then [] else [l] := by
  rw [tokenizeAux_noSlash l '/' [] hs]
  simp

theorem trimStartSlashes_cons_slash (rest : List Char) :
    trimStartSlashes ('/' :: rest) = trimStartSlashes rest := by
  simp [trimStartSlashes, List.dropWhile_cons]

theorem trimStartSlashes_cons (c : Char) (rest : List Char) (h : c ≠ '/') :
    trimStartSlashes (c :: rest) = c :: rest := by
  simp [trimStartSlashes, List.dropWhile_cons, h]

/-- A slash-free string has no leading slash to trim. -/
theorem trimStartSlashes_noSlash (l : List Char) (hs : '/' ∉ l) :
    trimStartSlashes l = l := by
  cases l with
  | nil => rfl
  | cons c rest =>
    have hc : c ≠ '/' := fun h => hs (h ▸ List.mem_cons_self c rest)
    exact trimStartSlashes_cons c rest hc

/-- Without any slash `tokenize_once` finds no cut point at all. -/
theorem tokenizeOnce_noSlash (l : List Char) (hs : '/' ∉ l) :
    tokenizeOnce l = none := by
  cases l with
  | nil => rfl
  | cons c rest =>
    have hs' : '/' ∉ rest := fun h => hs (List.mem_cons_of_mem c h)
    simp [tokenizeOnce, tokenizeOnceAux_noSlash rest c hs']

end Cataclysm

namespace Cataclysm

/-! ### Claim C8: tokenizer contract -/

/-- C8 counterexample: on the input `"/abc"` the leading slash is NOT ignored
by `tokenize` — position 0 is never a cut point, so the slash stays inside the
first token, contradicting the claim that a leading `'/'` is neither kept as
part of the first token nor produces an empty one. -/
theorem c8_counterexample :
    tokenize ['/', 'a', 'b', 'c'] = [['/', 'a', 'b', 'c']] ∧
    ([['/', 'a', 'b', 'c']] : List (List Char)) ≠ [['a', 'b', 'c']] := by
  constructor
  · rfl
  · decide

/-- C8 (amended): `tokens` and `split_once` treat `'/'` as a separator except
when it is immediately preceded by a backslash or stands at position 0; a
leading `'/'` is not a separator and remains part of the first token (callers
strip leading slashes before tokenizing).  The empty input yields the empty
sequence, a trailing `'/'` produces no empty tail token, and `split_once`
returns `none` when no separator exists. -/
theorem c8_tokenizer_contract :
    (tokenize [] = ([] : List (List Char))) ∧
    (∀ tok rest : List Char, tok ≠ [] → '/' ∉ tok → '\\' ∉ tok →
      tokenizeOnce (tok ++ '/' :: rest) = some (tok, rest)) ∧
    (∀ tok : List Char, tok ≠ [] → '/' ∉ tok → '\\' ∉ tok →
      tokenize (tok ++ ['/']) = [tok]) ∧
    (∀ l : List Char, '/' ∉ l.tail → tokenizeOnce l = none) ∧
    (∀ t1 t2 : List Char, t1 ≠ [] → '/' ∉ t1 → '\\' ∉ t1 → '/' ∉ t2 →
      tokenize (t1 ++ '\\' :: '/' :: t2) = [t1 ++ '\\' :: '/' :: t2]) ∧
    (∀ t : List Char, '/' ∉ t → tokenize ('/' :: t) = ['/' :: t]) := by
  refine ⟨rfl, tokenizeOnce_append, ?_, ?_, ?_, ?_⟩
  · intro tok hne hs hb
    match tok, hne with
    | c :: t', _ =>
      show tokenize ((c :: t') ++ ['/']) = [c :: t']
      have hc : c ≠ '\\' := fun h => hb (h ▸ List.mem_cons_self c t')
      have hs' : '/' ∉ t' := fun h => hs (List.mem_cons_of_mem c h)
      have hb' : '\\' ∉ t' := fun h => hb (List.mem_cons_of_mem c h)
      have : (c :: t') ++ ['/'] = c :: (t' ++ '/' :: []) := by simp
      rw [this]
      simp only [tokenize]
      rw [tokenizeAux_append t' c [c] [] hs' hb' hc]
      simp [tokenizeAux]
  · intro l hs
    cases l with
    | nil => rfl
    | cons c rest =>
      simp only [tokenizeOnce]
      rw [tokenizeOnceAux_noSlash rest c (by simpa using hs)]
  · intro t1 t2 hne hs1 hb1 hs2
    match t1, hne with
    | c :: t', _ =>
      have hs' : '/' ∉ t' := fun h => hs1 (List.mem_cons_of_mem c h)
      show tokenize (c :: t' ++ '\\' :: '/' :: t2) = [(c :: t') ++ '\\' :: '/' :: t2]
      simp only [tokenize, List.cons_append]
      rw [show t' ++ '\\' :: '/' :: t2 = (t' ++ ['\\']) ++ '/' :: t2 by simp]
      rw [tokenizeAux_through (t' ++ ['\\']) c [c] ('/' :: t2) (by simp [hs'])]
      have hl : ((t' ++ ['\\']).getLastD c) = '\\' := by
        simp [List.getLastD_eq_getLast?]
      rw [hl]
      simp only [tokenizeAux]
      rw [if_neg (by simp)]
      rw [tokenizeAux_noSlash t2 '/' ('/' :: ((t' ++ ['\\']).reverse ++ [c])) hs2]
      simp
  · intro t hs
    simp only [tokenize]
    rw [tokenizeAux_noSlash t '/' ['/'] hs]
    simp

/-- Witness for C8: the amended tokenizer contract evaluated at concrete
inputs. -/
theorem c8_tokenizer_contract_witness :
    tokenizeOnce (['a', 'b'] ++ '/' :: ['c']) = some (['a', 'b'], ['c']) ∧
    tokenize (['a', 'b'] ++ ['/']) = [['a', 'b']] ∧
    tokenizeOnce ['x', 'y'] = none ∧
    tokenize (['a'] ++ '\\' :: '/' :: ['b']) = [['a'] ++ '\\' :: '/' :: ['b']] ∧
    tokenize ('/' :: ['a']) = ['/' :: ['a']] :=
  ⟨c8_tokenizer_contract.2.1 ['a', 'b'] ['c'] (by decide) (by decide) (by decide),
   c8_tokenizer_contract.2.2.1 ['a', 'b'] (by decide) (by decide) (by decide),
   c8_tokenizer_contract.2.2.2.1 ['x', 'y'] (by decide),
   c8_tokenizer_contract.2.2.2.2.1 ['a'] ['b'] (by decide) (by decide) (by decide) (by decide),
   c8_tokenizer_contract.2.2.2.2.2 ['a'] (by decide)⟩

end Cataclysm

namespace CataclysmWs

/-! ### WebSocket frame codec (src/cataclysm-ws/src/frame.rs)

Byte buffers are `List Nat` whose elements are below 256.  A Rust `String` is
represented by its UTF-8 bytes together with the validity predicate
`utf8Valid` that `String::from_utf8` checks.  A direct (panicking) slice index
`candidate[i]` is modelled by `List.get?` with the `panicked` outcome, while
checked accesses (`candidate.get(range)`) keep their `Option` behaviour. -/

/-- The message revision used by `frame.rs`: `Ping`/`Pong`/`Close` carry no
payload (`Message::to_bytes` maps them to the empty vector). -/
inductive Message where
  | Text (content : List Nat)
  | Binary (content : List Nat)
  | Ping
  | Pong
  | Close
deriving DecidableEq

/-- `From<Message> for Vec<u8>`: text and binary carry their bytes, control
messages serialize to the empty payload. -/
def Message.toBytes : Message → List Nat
  | .Text content => content
  | .Binary content => content
  | .Ping => []
  | .Pong => []
  | .Close => []

/-- `FrameParseError` (src/cataclysm-ws/src/error.rs); the `InvalidUtf8`
payload (a `FromUtf8Error`) is dropped. -/
inductive FrameParseError where
  | WrongFinRSV
  | Incomplete
  | Malformed
  | NullContent
  | InvalidUtf8
  | UnsupportedOpCode
deriving DecidableEq

/-- `Frame`: op code, optional masking key (a `u32`), and the typed message. -/
structure Frame where
  innerOpCode : Nat
  maskingKey : Option Nat
  message : Message
deriving DecidableEq

def FIN_RSV : Nat := 0x80
def OP_CODE_CONTINUATION : Nat := 0x00
def OP_CODE_TEXT : Nat := 0x01
def OP_CODE_BINARY : Nat := 0x02
def OP_CODE_CLOSE : Nat := 0x08
def OP_CODE_PING : Nat := 0x09
def OP_CODE_PONG : Nat := 0x0A

/-- Result of `Frame::parse`, extended with the `panicked` outcome that models
a Rust index-out-of-bounds panic. -/
inductive WSParse where
  | ok (f : Frame)
  | err (e : FrameParseError)
  | panicked
deriving DecidableEq

/-- Is the byte a UTF-8 continuation byte (`0x80..=0xBF`)? -/
def isCont (b : Nat) : Bool := decide (0x80 ≤ b) && decide (b ≤ 0xBF)

/-- The UTF-8 validity check performed by `String::from_utf8` (RFC 3629
table, as implemented by Rust's standard library). -/
def utf8Valid : List Nat → Bool
  | [] => true
  | b :: rest =>
    if b < 0x80 then utf8Valid rest
    else if 0xC2 ≤ b ∧ b ≤ 0xDF then
      match rest with
      | b1 :: r => isCont b1 && utf8Valid r
      | [] => false
    else if b = 0xE0 then
      match rest with
      | b1 :: b2 :: r => decide (0xA0 ≤ b1) && decide (b1 ≤ 0xBF) && isCont b2 && utf8Valid r
      | _ => false
    else if (0xE1 ≤ b ∧ b ≤ 0xEC) ∨ b = 0xEE ∨ b = 0xEF then
      match rest with
      | b1 :: b2 :: r => isCont b1 && isCont b2 && utf8Valid r
      | _ => false
    else if b = 0xED then
      match rest with
      | b1 :: b2 :: r => decide (0x80 ≤ b1) && decide (b1 ≤ 0x9F) && isCont b2 && utf8Valid r
      | _ => false
    else if b = 0xF0 then
      match rest with
      | b1 :: b2 :: b3 :: r =>
        decide (0x90 ≤ b1) && decide (b1 ≤ 0xBF) && isCont b2 && isCont b3 && utf8Valid r
      | _ => false
    else if 0xF1 ≤ b ∧ b ≤ 0xF3 then
      match rest with
      | b1 :: b2 :: b3 :: r => isCont b1 && isCont b2 && isCont b3 && utf8Valid r
      | _ => false
    else if b = 0xF4 then
      match rest with
      | b1 :: b2 :: b3 :: r =>
        decide (0x80 ≤ b1) && decide (b1 ≤ 0x8F) && isCont b2 && isCont b3 && utf8Valid r
      | _ => false
    else false

/-- Big-endian bytes of `v` truncated to `w` bytes (`to_be_bytes` after an
integer cast). -/
def beBytes : Nat → Nat → List Nat
  | 0, _ => []
  | w + 1, v => beBytes w (v / 256) ++ [v % 256]

/-- Big-endian recombination (`from_be_bytes`). -/
def fromBeBytes (l : List Nat) : Nat := l.foldl (fun a b => a * 256 + b) 0

/-- The running XOR-mask of RFC 6455 (`v ^ key[idx % 4]`), with the byte
index threaded explicitly. -/
def applyMaskFrom (key : List Nat) (idx : Nat) : List Nat → List Nat
  | [] => []
  | v :: rest => (v ^^^ key.getD (idx % 4) 0) :: applyMaskFrom key (idx + 1) rest

def applyMask (key payload : List Nat) : List Nat := applyMaskFrom key 0 payload

/-- `From<Frame> for Vec<u8>`: header byte, minimum-length encoding of the
payload length (with the mask bit), masking key bytes and (possibly masked)
payload.  The source's `if !payload.is_empty()` guard around the final extend
is dropped: extending with an empty payload is the identity. -/
def frameSerialize (f : Frame) : List Nat :=
  let payload := f.message.toBytes
  let payloadLength := payload.length
  let maskBit : Nat := if f.maskingKey.isSome then 0x80 else 0x00
  let header : List Nat :=
    if payloadLength < 126 then
      [FIN_RSV ^^^ f.innerOpCode, payloadLength ||| maskBit]
    else if payloadLength ≤ 65535 then
      [FIN_RSV ^^^ f.innerOpCode, 126 ||| maskBit] ++ beBytes 2 payloadLength
    else
      [FIN_RSV ^^^ f.innerOpCode, 127 ||| maskBit] ++ beBytes 8 payloadLength
  match f.maskingKey with
  | some key => header ++ beBytes 4 key ++ applyMask (beBytes 4 key) payload
  | none => header ++ payload

/-- The final `match inner_op_code` block of `Frame::parse`: build the typed
message, validating UTF-8 for text frames. -/
def frameDispatch (innerOpCode : Nat) (maskingKey : Option Nat) (payload : List Nat) : WSParse :=
  if innerOpCode = OP_CODE_TEXT then
    if utf8Valid payload then
      .ok ⟨innerOpCode, maskingKey, .Text payload⟩
    else .err .InvalidUtf8
  else if innerOpCode = OP_CODE_BINARY then
    .ok ⟨innerOpCode, maskingKey, .Binary payload⟩
  else if innerOpCode = OP_CODE_PING then
    .ok ⟨innerOpCode, maskingKey, .Ping⟩
  else if innerOpCode = OP_CODE_PONG then
    .ok ⟨innerOpCode, maskingKey, .Pong⟩
  else if innerOpCode = OP_CODE_CLOSE then
    .ok ⟨innerOpCode, maskingKey, .Close⟩
  else .err .UnsupportedOpCode

/-- The `(length, offset)` computation of `Frame::parse` (the
`if min_length == 126 … else if min_length == 127 … else …` block), including
its two `Malformed` length checks. -/
def frameLengthOffset (candidate : List Nat) (c1 : Nat) : WSParse ⊕ (Nat × Nat) :=
  let minLength := c1 &&& 0x7f
  if minLength = 126 then
    if candidate.length < 4 then .inl (.err .Malformed)
    else
      match candidate.get? 2, candidate.get? 3 with
      | some c2, some c3 => .inr (fromBeBytes [c2, c3], 4)
      | _, _ => .inl .panicked
  else if minLength = 127 then
    if candidate.length < 10 then .inl (.err .Malformed)
    else
      match candidate.get? 2, candidate.get? 3, candidate.get? 4,
          candidate.get? 5, candidate.get? 6, candidate.get? 7,
          candidate.get? 8, candidate.get? 9 with
      | some c2, some c3, some c4, some c5, some c6, some c7, some c8, some c9 =>
        .inr (fromBeBytes [c2, c3, c4, c5, c6, c7, c8, c9], 10)
      | _, _, _, _, _, _, _, _ => .inl .panicked
  else .inr (minLength, 2)

/-- The masking-key extraction of `Frame::parse`: when the mask bit of
`candidate[1]` is set, `offset += 4` and the four *unchecked* indexes
`candidate[offset-4] .. candidate[offset-1]` are read (panicking when out of
bounds). -/
def frameMaskStep (candidate : List Nat) (c1 offset0 : Nat) :
    WSParse ⊕ (Option (List Nat) × Nat) :=
  if c1 &&& 0x80 = 0x80 then
    let offset := offset0 + 4
    match candidate.get? (offset - 4), candidate.get? (offset - 3),
        candidate.get? (offset - 2), candidate.get? (offset - 1) with
    | some k0, some k1, some k2, some k3 => .inr (some [k0, k1, k2, k3], offset)
    | _, _, _, _ => .inl .panicked
  else .inr (none, offset0)

/-- The payload extraction and unmasking of `Frame::parse`:
`candidate.get(offset..offset+length)` (checked, `Incomplete` on `None`),
then the XOR unmask and the op-code dispatch. -/
def framePayloadStep (candidate : List Nat) (c0 length offset : Nat)
    (maskingKeyBytes : Option (List Nat)) : WSParse :=
  let innerOpCode := ((c0 <<< 4) % 256) >>> 4
  if offset + length ≤ candidate.length then
    let rawPayload := (candidate.drop offset).take length
    let payload :=
      match maskingKeyBytes with
      | some key => applyMask key rawPayload
      | none => rawPayload
    frameDispatch innerOpCode (maskingKeyBytes.map fromBeBytes) payload
  else .err .Incomplete

/-- `Frame::parse`, assembled from its sequential stages.  Unchecked slice
indexes become `panicked` when out of bounds; on `u8`, `!FIN_RSV` is `0x7f`
and `(candidate[0] << 4) >> 4` is modelled with an explicit `% 256`. -/
def frameParse (candidate : List Nat) : WSParse :=
  if candidate = [] then .err .NullContent
  else
    match candidate.get? 0 with
    | none => .panicked
    | some c0 =>
      if ((c0 ^^^ 0x7f) >>> 4) ≠ 0x0f then .err .WrongFinRSV
      else
        match candidate.get? 1 with
        | none => .panicked
        | some c1 =>
          match frameLengthOffset candidate c1 with
          | .inl e => e
          | .inr (length, offset0) =>
            match frameMaskStep candidate c1 offset0 with
            | .inl e => e
            | .inr (maskingKeyBytes, offset) =>
              framePayloadStep candidate c0 length offset maskingKeyBytes

theorem beBytes_length (w v : Nat) : (beBytes w v).length = w := by
  induction w generalizing v with
  | zero => rfl
  | succ w ih => simp [beBytes, ih]

theorem foldl_be (w v acc : Nat) :
    List.foldl (fun a b => a * 256 + b) acc (beBytes w v) = acc * 256 ^ w + v % 256 ^ w := by
  induction w generalizing v acc with
  | zero => simp [beBytes, Nat.mod_one]
  | succ w ih =>
    simp only [beBytes, List.foldl_append, List.foldl_cons, List.foldl_nil]
    rw [ih]
    have hd : (256 : Nat) ∣ 256 ^ (w + 1) := dvd_pow_self 256 (Nat.succ_ne_zero w)
    have h2 : v % 256 ^ (w + 1) % 256 = v % 256 := Nat.mod_mod_of_dvd v hd
    have h3 : v / 256 % 256 ^ w = v % 256 ^ (w + 1) / 256 := by
      rw [← Nat.mod_mul_right_div_self]
      congr 1
      rw [pow_succ]
      ring
    have h1 : v % 256 ^ (w + 1) = 256 * (v / 256 % 256 ^ w) + v % 256 := by
      rw [h3, ← h2]
      exact (Nat.div_add_mod _ 256).symm
    rw [h1, pow_succ]
    ring

/-- `from_be_bytes` inverts `to_be_bytes` up to truncation. -/
theorem fromBeBytes_beBytes (w v : Nat) : fromBeBytes (beBytes w v) = v % 256 ^ w := by
  simpa using foldl_be w v 0

theorem applyMaskFrom_length (key : List Nat) (idx : Nat) (p : List Nat) :
    (applyMaskFrom key idx p).length = p.length := by
  induction p generalizing idx with
  | nil => rfl
  | cons v rest ih => simp [applyMaskFrom, ih]

/-- XOR-masking twice with the same key is the identity. -/
theorem applyMaskFrom_involutive (key : List Nat) (idx : Nat) (p : List Nat) :
    applyMaskFrom key idx (applyMaskFrom key idx p) = p := by
  induction p generalizing idx with
  | nil => rfl
  | cons v rest ih =>
    simp only [applyMaskFrom]
    rw [Nat.xor_cancel_right, ih (idx + 1)]

theorem applyMask_length (key p : List Nat) : (applyMask key p).length = p.length :=
  applyMaskFrom_length key 0 p

theorem applyMask_involutive (key p : List Nat) : applyMask key (applyMask key p) = p :=
  applyMaskFrom_involutive key 0 p

theorem and127_of_lt (pl : Nat) (h : pl < 128) : pl &&& 127 = pl := by
  have := Nat.and_pow_two_sub_one_eq_mod pl 7
  simpa [Nat.mod_eq_of_lt h] using this

theorem and128_of_lt (pl : Nat) (h : pl < 128) : pl &&& 128 = 0 := by
  apply Nat.eq_of_testBit_eq
  intro i
  simp only [Nat.testBit_and, Nat.zero_testBit]
  rcases Nat.lt_or_ge i 7 with hi | hi
  · interval_cases i <;> simp [Nat.testBit_to_div_mod]
  · have h2 : Nat.testBit pl i = false :=
      Nat.testBit_eq_false_of_lt (lt_of_lt_of_le h (by
        calc (128 : Nat) = 2 ^ 7 := by norm_num
        _ ≤ 2 ^ i := Nat.pow_le_pow_right (by norm_num) hi))
    simp [h2]

theorem or128_and127 (pl : Nat) (h : pl < 128) : (pl ||| 128) &&& 127 = pl := by
  apply Nat.eq_of_testBit_eq
  intro i
  simp only [Nat.testBit_and, Nat.testBit_or]
  rcases Nat.lt_or_ge i 7 with hi | hi
  · interval_cases i <;> simp [Nat.testBit_to_div_mod]
  · have h1 : Nat.testBit 127 i = false := Nat.testBit_eq_false_of_lt (by
      calc (127 : Nat) < 2 ^ 7 := by norm_num
      _ ≤ 2 ^ i := Nat.pow_le_pow_right (by norm_num) hi)
    have h2 : Nat.testBit pl i = false :=
      Nat.testBit_eq_false_of_lt (lt_of_lt_of_le h (by
        calc (128 : Nat) = 2 ^ 7 := by norm_num
        _ ≤ 2 ^ i := Nat.pow_le_pow_right (by norm_num) hi))
    simp [h1, h2]

theorem or128_and128 (pl : Nat) (_h : pl < 128) : (pl ||| 128) &&& 128 = 128 := by
  apply Nat.eq_of_testBit_eq
  intro i
  simp only [Nat.testBit_and, Nat.testBit_or]
  rcases Nat.lt_or_ge i 8 with hi | hi
  · interval_cases i <;> simp [Nat.testBit_to_div_mod]
  · have h1 : Nat.testBit 128 i = false := Nat.testBit_eq_false_of_lt (by
      calc (128 : Nat) < 2 ^ 8 := by norm_num
      _ ≤ 2 ^ i := Nat.pow_le_pow_right (by norm_num) hi)
    simp [h1]

/-- A two-byte candidate prefix passes the emptiness and FIN-RSV checks and
proceeds to the staged computation. -/
theorem frameParse_cons (c0 c1 : Nat) (rest : List Nat)
    (hfin : (c0 ^^^ 0x7f) >>> 4 = 0x0f) :
    frameParse (c0 :: c1 :: rest) =
      (match frameLengthOffset (c0 :: c1 :: rest) c1 with
      | .inl e => e
      | .inr (length, offset0) =>
        match frameMaskStep (c0 :: c1 :: rest) c1 offset0 with
        | .inl e => e
        | .inr (maskingKeyBytes, offset) =>
          framePayloadStep (c0 :: c1 :: rest) c0 length offset maskingKeyBytes) := by
  simp only [frameParse, List.get?]
  rw [if_neg (by simp), if_neg (by simp [hfin])]

/-- One-byte length form of the `(length, offset)` stage. -/
theorem frameLengthOffset_small (candidate : List Nat) (c1 pl : Nat)
    (hmin : c1 &&& 0x7f = pl) (h126 : pl ≠ 126) (h127 : pl ≠ 127) :
    frameLengthOffset candidate c1 = .inr (pl, 2) := by
  simp only [frameLengthOffset, hmin]
  rw [if_neg h126, if_neg h127]

/-- Two-byte length form of the `(length, offset)` stage. -/
theorem frameLengthOffset_medium (c0 c1 : Nat) (bytes2 rest : List Nat)
    (hmin : c1 &&& 0x7f = 126) (hb : bytes2.length = 2) :
    frameLengthOffset (c0 :: c1 :: (bytes2 ++ rest)) c1 = .inr (fromBeBytes bytes2, 4) := by
  match bytes2, hb with
  | [x, y], _ =>
    simp only [frameLengthOffset, hmin]
    rw [if_pos trivial]
    rw [if_neg (by simp only [List.cons_append, List.length_cons, List.length_append]; omega)]
    rfl

/-- Eight-byte length form of the `(length, offset)` stage. -/
theorem frameLengthOffset_large (c0 c1 : Nat) (bytes8 rest : List Nat)
    (hmin : c1 &&& 0x7f = 127) (hb : bytes8.length = 8) :
    frameLengthOffset (c0 :: c1 :: (bytes8 ++ rest)) c1 = .inr (fromBeBytes bytes8, 10) := by
  match bytes8, hb with
  | [e2, e3, e4, e5, e6, e7, e8, e9], _ =>
    simp only [frameLengthOffset, hmin]
    norm_num

/-- Mask stage with a clear mask bit. -/
theorem frameMaskStep_none (candidate : List Nat) (c1 offset0 : Nat)
    (h : c1 &&& 0x80 = 0) :
    frameMaskStep candidate c1 offset0 = .inr (none, offset0) := by
  simp only [frameMaskStep]
  rw [if_neg (by simp [h])]

/-- Mask stage with a set mask bit: the four key bytes sitting at
`offset0 .. offset0+3` are read. -/
theorem frameMaskStep_some (pre : List Nat) (c1 k0 k1 k2 k3 : Nat) (rest : List Nat)
    (h : c1 &&& 0x80 = 0x80) :
    frameMaskStep (pre ++ k0 :: k1 :: k2 :: k3 :: rest) c1 pre.length =
      .inr (some [k0, k1, k2, k3], pre.length + 4) := by
  simp only [frameMaskStep, if_pos h]
  have key : ∀ i, (pre ++ k0 :: k1 :: k2 :: k3 :: rest).get? (pre.length + i) =
      (k0 :: k1 :: k2 :: k3 :: rest).get? i := by
    intro i
    rw [List.get?_append_right (by omega)]
    congr 1
    omega
  rw [show pre.length + 4 - 4 = pre.length + 0 by omega,
    show pre.length + 4 - 3 = pre.length + 1 by omega,
    show pre.length + 4 - 2 = pre.length + 2 by omega,
    show pre.length + 4 - 1 = pre.length + 3 by omega,
    key 0, key 1, key 2, key 3]
  rfl

/-- Payload stage, unmasked: the payload is the slice after the header. -/
theorem framePayloadStep_none (pre p : List Nat) (c0 : Nat) :
    framePayloadStep (pre ++ p) c0 p.length pre.length none =
      frameDispatch (((c0 <<< 4) % 256) >>> 4) none p := by
  simp only [framePayloadStep]
  rw [if_pos (by simp)]
  rw [List.drop_left, List.take_length]
  rfl

/-- Payload stage, masked: unmasking restores the original payload. -/
theorem framePayloadStep_some (pre key p : List Nat) (c0 : Nat) :
    framePayloadStep (pre ++ applyMask key p) c0 p.length pre.length (some key) =
      frameDispatch (((c0 <<< 4) % 256) >>> 4) (some (fromBeBytes key)) p := by
  have hm : (applyMask key p).length = p.length := applyMask_length key p
  simp only [framePayloadStep]
  rw [if_pos (by simp [hm])]
  rw [List.drop_left]
  rw [show List.take p.length (applyMask key p) = applyMask key p by
    rw [← hm, List.take_length]]
  rw [applyMask_involutive]
  rfl

theorem exists_four (l : List Nat) (h : l.length = 4) : ∃ a b c d, l = [a, b, c, d] := by
  match l, h with
  | [a, b, c, d], _ => exact ⟨a, b, c, d, rfl⟩

/-- The op code that the library constructors (`Frame::text`, `Frame::binary`,
`Frame::close`, and the parser itself) pair with each message kind. -/
def Message.opCode : Message → Nat
  | .Text _ => OP_CODE_TEXT
  | .Binary _ => OP_CODE_BINARY
  | .Ping => OP_CODE_PING
  | .Pong => OP_CODE_PONG
  | .Close => OP_CODE_CLOSE

/-- Parsing a serialized frame always reaches the op-code dispatch with the
original op code, masking key and payload recovered. -/
theorem frameParse_frameSerialize (op : Nat) (mk : Option Nat) (m : Message)
    (hop : op < 16)
    (hk : ∀ k, mk = some k → k < 2 ^ 32)
    (hlen : m.toBytes.length < 2 ^ 64) :
    frameParse (frameSerialize ⟨op, mk, m⟩) = frameDispatch op mk m.toBytes := by
  have hfin : ((FIN_RSV ^^^ op) ^^^ 0x7f) >>> 4 = 0x0f := by
    simp only [FIN_RSV]
    interval_cases op <;> decide
  have hopc : (((FIN_RSV ^^^ op) <<< 4) % 256) >>> 4 = op := by
    simp only [FIN_RSV]
    interval_cases op <;> decide
  cases mk with
  | none =>
    simp only [frameSerialize, Option.isSome_none, Bool.false_eq_true, if_false]
    revert hlen
    generalize m.toBytes = p
    intro hlen
    by_cases hpl : p.length < 126
    · rw [if_pos hpl]
      simp only [List.cons_append, List.nil_append, Nat.or_zero]
      rw [frameParse_cons _ _ _ hfin]
      rw [frameLengthOffset_small _ _ p.length (and127_of_lt _ (by omega))
        (by omega) (by omega)]
      dsimp only
      rw [frameMaskStep_none _ _ _ (and128_of_lt _ (by omega))]
      dsimp only
      calc framePayloadStep ((FIN_RSV ^^^ op) :: p.length :: p) (FIN_RSV ^^^ op) p.length 2 none
          = frameDispatch (((FIN_RSV ^^^ op) <<< 4 % 256) >>> 4) none p := by
            simpa using framePayloadStep_none [FIN_RSV ^^^ op, p.length] p (FIN_RSV ^^^ op)
        _ = frameDispatch op none p := by rw [hopc]
    · rw [if_neg hpl]
      by_cases hpl2 : p.length ≤ 65535
      · rw [if_pos hpl2]
        simp only [List.cons_append, List.nil_append, List.append_assoc, Nat.or_zero]
        rw [frameParse_cons _ _ _ hfin]
        rw [frameLengthOffset_medium _ _ (beBytes 2 p.length) p (by decide)
          (beBytes_length 2 _)]
        rw [fromBeBytes_beBytes, Nat.mod_eq_of_lt (by norm_num; omega)]
        dsimp only
        rw [frameMaskStep_none _ _ _ (by decide)]
        dsimp only
        calc framePayloadStep ((FIN_RSV ^^^ op) :: 126 :: (beBytes 2 p.length ++ p))
              (FIN_RSV ^^^ op) p.length 4 none
            = frameDispatch (((FIN_RSV ^^^ op) <<< 4 % 256) >>> 4) none p := by
              have h := framePayloadStep_none ([FIN_RSV ^^^ op, 126] ++ beBytes 2 p.length)
                p (FIN_RSV ^^^ op)
              simpa [beBytes_length] using h
          _ = frameDispatch op none p := by rw [hopc]
      · rw [if_neg hpl2]
        simp only [List.cons_append, List.nil_append, List.append_assoc, Nat.or_zero]
        rw [frameParse_cons _ _ _ hfin]
        rw [frameLengthOffset_large _ _ (beBytes 8 p.length) p (by decide)
          (beBytes_length 8 _)]
        rw [fromBeBytes_beBytes, Nat.mod_eq_of_lt (by norm_num at hlen ⊢; omega)]
        dsimp only
        rw [frameMaskStep_none _ _ _ (by decide)]
        dsimp only
        calc framePayloadStep ((FIN_RSV ^^^ op) :: 127 :: (beBytes 8 p.length ++ p))
              (FIN_RSV ^^^ op) p.length 10 none
            = frameDispatch (((FIN_RSV ^^^ op) <<< 4 % 256) >>> 4) none p := by
              have h := framePayloadStep_none ([FIN_RSV ^^^ op, 127] ++ beBytes 8 p.length)
                p (FIN_RSV ^^^ op)
              simpa [beBytes_length] using h
          _ = frameDispatch op none p := by rw [hopc]
  | some k =>
    have hk32 : k < 2 ^ 32 := hk k rfl
    have hkk : fromBeBytes (beBytes 4 k) = k := by
      rw [fromBeBytes_beBytes, Nat.mod_eq_of_lt (by norm_num at hk32 ⊢; omega)]
    obtain ⟨k0, k1, k2, k3, hks⟩ := exists_four (beBytes 4 k) (beBytes_length 4 k)
    simp only [frameSerialize, Option.isSome_some, if_true]
    revert hlen
    generalize m.toBytes = p
    intro hlen
    by_cases hpl : p.length < 126
    · rw [if_pos hpl]
      rw [hks]
      simp only [List.cons_append, List.nil_append, List.append_assoc]
      rw [frameParse_cons _ _ _ hfin]
      rw [frameLengthOffset_small _ _ p.length (or128_and127 _ (by omega))
        (by omega) (by omega)]
      dsimp only
      rw [show frameMaskStep
            ((FIN_RSV ^^^ op) :: (p.length ||| 128) ::
              (k0 :: k1 :: k2 :: k3 :: applyMask [k0, k1, k2, k3] p))
            (p.length ||| 128) 2 = .inr (some [k0, k1, k2, k3], 6) by
        simpa using frameMaskStep_some [FIN_RSV ^^^ op, p.length ||| 128] (p.length ||| 128)
          k0 k1 k2 k3 (applyMask [k0, k1, k2, k3] p) (or128_and128 _ (by omega))]
      dsimp only
      calc framePayloadStep
            ((FIN_RSV ^^^ op) :: (p.length ||| 128) ::
              (k0 :: k1 :: k2 :: k3 :: applyMask [k0, k1, k2, k3] p))
            (FIN_RSV ^^^ op) p.length 6 (some [k0, k1, k2, k3])
          = frameDispatch (((FIN_RSV ^^^ op) <<< 4 % 256) >>> 4)
              (some (fromBeBytes [k0, k1, k2, k3])) p := by
            simpa using framePayloadStep_some
              [FIN_RSV ^^^ op, p.length ||| 128, k0, k1, k2, k3] [k0, k1, k2, k3] p
              (FIN_RSV ^^^ op)
        _ = frameDispatch op (some k) p := by rw [hopc, ← hks, hkk]
    · rw [if_neg hpl]
      by_cases hpl2 : p.length ≤ 65535
      · rw [if_pos hpl2]
        rw [hks]
        simp only [List.cons_append, List.nil_append, List.append_assoc,
          show (126 ||| 128 : Nat) = 254 from rfl]
        rw [frameParse_cons _ _ _ hfin]
        rw [frameLengthOffset_medium _ _ (beBytes 2 p.length)
          (k0 :: k1 :: k2 :: k3 :: applyMask [k0, k1, k2, k3] p) (by decide)
          (beBytes_length 2 _)]
        rw [fromBeBytes_beBytes, Nat.mod_eq_of_lt (by norm_num; omega)]
        dsimp only
        rw [show frameMaskStep
              ((FIN_RSV ^^^ op) :: 254 ::
                (beBytes 2 p.length ++ k0 :: k1 :: k2 :: k3 :: applyMask [k0, k1, k2, k3] p))
              254 4 = .inr (some [k0, k1, k2, k3], 8) by
          have h := frameMaskStep_some ([FIN_RSV ^^^ op, 254] ++ beBytes 2 p.length) 254
            k0 k1 k2 k3 (applyMask [k0, k1, k2, k3] p) (by decide)
          simpa [beBytes_length] using h]
        dsimp only
        calc framePayloadStep
              ((FIN_RSV ^^^ op) :: 254 ::
                (beBytes 2 p.length ++ k0 :: k1 :: k2 :: k3 :: applyMask [k0, k1, k2, k3] p))
              (FIN_RSV ^^^ op) p.length 8 (some [k0, k1, k2, k3])
            = frameDispatch (((FIN_RSV ^^^ op) <<< 4 % 256) >>> 4)
                (some (fromBeBytes [k0, k1, k2, k3])) p := by
              have h := framePayloadStep_some
                (([FIN_RSV ^^^ op, 254] ++ beBytes 2 p.length) ++ [k0, k1, k2, k3])
                [k0, k1, k2, k3] p (FIN_RSV ^^^ op)
              simpa [beBytes_length] using h
          _ = frameDispatch op (some k) p := by rw [hopc, ← hks, hkk]
      · rw [if_neg hpl2]
        rw [hks]
        simp only [List.cons_append, List.nil_append, List.append_assoc,
          show (127 ||| 128 : Nat) = 255 from rfl]
        rw [frameParse_cons _ _ _ hfin]
        rw [frameLengthOffset_large _ _ (beBytes 8 p.length)
          (k0 :: k1 :: k2 :: k3 :: applyMask [k0, k1, k2, k3] p) (by decide)
          (beBytes_length 8 _)]
        rw [fromBeBytes_beBytes, Nat.mod_eq_of_lt (by norm_num at hlen ⊢; omega)]
        dsimp only
        rw [show frameMaskStep
              ((FIN_RSV ^^^ op) :: 255 ::
                (beBytes 8 p.length ++ k0 :: k1 :: k2 :: k3 :: applyMask [k0, k1, k2, k3] p))
              255 10 = .inr (some [k0, k1, k2, k3], 14) by
          have h := frameMaskStep_some ([FIN_RSV ^^^ op, 255] ++ beBytes 8 p.length) 255
            k0 k1 k2 k3 (applyMask [k0, k1, k2, k3] p) (by decide)
          simpa [beBytes_length] using h]
        dsimp only
        calc framePayloadStep
              ((FIN_RSV ^^^ op) :: 255 ::
                (beBytes 8 p.length ++ k0 :: k1 :: k2 :: k3 :: applyMask [k0, k1, k2, k3] p))
              (FIN_RSV ^^^ op) p.length 14 (some [k0, k1, k2, k3])
            = frameDispatch (((FIN_RSV ^^^ op) <<< 4 % 256) >>> 4)
                (some (fromBeBytes [k0, k1, k2, k3])) p := by
              have h := framePayloadStep_some
                (([FIN_RSV ^^^ op, 255] ++ beBytes 8 p.length) ++ [k0, k1, k2, k3])
                [k0, k1, k2, k3] p (FIN_RSV ^^^ op)
              simpa [beBytes_length] using h
          _ = frameDispatch op (some k) p := by rw [hopc, ← hks, hkk]

/-- The serialized size of a frame: two header bytes, the extended length
bytes of the minimum-length encoding, the masking key when present, and the
payload. -/
theorem frameSerialize_length (f : Frame) :
    (frameSerialize f).length =
      2 + (if f.message.toBytes.length ≤ 125 then 0
        else if f.message.toBytes.length ≤ 65535 then 2 else 8)
        + (if f.maskingKey.isSome then 4 else 0) + f.message.toBytes.length := by
  obtain ⟨op, mk, m⟩ := f
  cases mk <;>
    simp only [frameSerialize, Option.isSome_none, Option.isSome_some, if_true,
      Bool.false_eq_true, if_false] <;>
    split_ifs <;>
    simp [beBytes_length, applyMask_length, List.length_append] <;>
    omega

namespace Claims

/-! ### Claim C3: totality of `Frame::parse` -/

/-- C3: the code, not the claim, is at fault.  `Frame::parse` reads
`candidate[1]` without a bounds check, so the single-byte buffer `[0x81]`
(FIN set, text op code — shorter than the two leading header bytes, which the
claim says must yield `Malformed`) makes the Rust code panic with an
index-out-of-bounds; likewise a masked frame header `[0x81, 0x85, 0x00]` cut
short before its masking key panics instead of returning `Malformed`. -/
theorem c3_parse_short_buffer_panics :
    CataclysmWs.frameParse [0x81] = .panicked ∧
    CataclysmWs.frameParse [0x81, 0x85, 0x00] = .panicked ∧
    CataclysmWs.WSParse.panicked ≠ .err .Malformed := by
  refine ⟨by decide, by decide, by decide⟩

/-! ### Claim C7: frame round-trip -/

/-- C7: round-trip.  For every supported message (with valid UTF-8 text
payload), any masking key below `2^32` and any payload length below `2^64`,
parsing the serialized frame recovers the op code, the masking key and the
message; and the serializer uses minimum length encoding (no extension bytes
for lengths up to 125, two bytes up to 65535, eight bytes beyond). -/
theorem c7_frame_roundtrip (m : CataclysmWs.Message) (mk : Option Nat)
    (hk : ∀ k, mk = some k → k < 2 ^ 32)
    (htext : ∀ p, m = .Text p → CataclysmWs.utf8Valid p = true)
    (hlen : m.toBytes.length < 2 ^ 64) :
    CataclysmWs.frameParse (CataclysmWs.frameSerialize ⟨m.opCode, mk, m⟩) =
      .ok ⟨m.opCode, mk, m⟩ ∧
    (CataclysmWs.frameSerialize ⟨m.opCode, mk, m⟩).length =
      2 + (if m.toBytes.length ≤ 125 then 0
        else if m.toBytes.length ≤ 65535 then 2 else 8)
        + (if mk.isSome then 4 else 0) + m.toBytes.length := by
  constructor
  · rw [CataclysmWs.frameParse_frameSerialize m.opCode mk m
      (by cases m <;>
        simp [CataclysmWs.Message.opCode, CataclysmWs.OP_CODE_TEXT,
          CataclysmWs.OP_CODE_BINARY, CataclysmWs.OP_CODE_PING,
          CataclysmWs.OP_CODE_PONG, CataclysmWs.OP_CODE_CLOSE]) hk hlen]
    cases m with
    | Text p =>
      have hv := htext p rfl
      simp [CataclysmWs.frameDispatch, CataclysmWs.Message.opCode,
        CataclysmWs.Message.toBytes, CataclysmWs.OP_CODE_TEXT, hv]
    | Binary p =>
      simp [CataclysmWs.frameDispatch, CataclysmWs.Message.opCode,
        CataclysmWs.Message.toBytes, CataclysmWs.OP_CODE_TEXT,
        CataclysmWs.OP_CODE_BINARY]
    | Ping =>
      simp [CataclysmWs.frameDispatch, CataclysmWs.Message.opCode,
        CataclysmWs.Message.toBytes, CataclysmWs.OP_CODE_TEXT,
        CataclysmWs.OP_CODE_BINARY, CataclysmWs.OP_CODE_PING]
    | Pong =>
      simp [CataclysmWs.frameDispatch, CataclysmWs.Message.opCode,
        CataclysmWs.Message.toBytes, CataclysmWs.OP_CODE_TEXT,
        CataclysmWs.OP_CODE_BINARY, CataclysmWs.OP_CODE_PING,
        CataclysmWs.OP_CODE_PONG]
    | Close =>
      simp [CataclysmWs.frameDispatch, CataclysmWs.Message.opCode,
        CataclysmWs.Message.toBytes, CataclysmWs.OP_CODE_TEXT,
        CataclysmWs.OP_CODE_BINARY, CataclysmWs.OP_CODE_PING,
        CataclysmWs.OP_CODE_PONG, CataclysmWs.OP_CODE_CLOSE]
  · exact CataclysmWs.frameSerialize_length ⟨m.opCode, mk, m⟩

/-- Witness for C7: a small text frame without mask and a masked close frame,
with all hypotheses discharged on concrete values. -/
theorem c7_frame_roundtrip_witness :
    (CataclysmWs.frameParse (CataclysmWs.frameSerialize
        ⟨(CataclysmWs.Message.Text [104, 105]).opCode, none, .Text [104, 105]⟩) =
      .ok ⟨(CataclysmWs.Message.Text [104, 105]).opCode, none, .Text [104, 105]⟩) ∧
    (CataclysmWs.frameParse (CataclysmWs.frameSerialize
        ⟨CataclysmWs.Message.Close.opCode, some 0xCAFEBABE, .Close⟩) =
      .ok ⟨CataclysmWs.Message.Close.opCode, some 0xCAFEBABE, .Close⟩) :=
  ⟨(c7_frame_roundtrip (.Text [104, 105]) none (by intro k h; cases h)
      (by intro p hp; cases hp; decide) (by decide)).1,
   (c7_frame_roundtrip .Close (some 0xCAFEBABE)
      (by intro k h; cases h; decide) (by intro p hp; cases hp) (by decide)).1⟩

end Claims

end CataclysmWs

namespace CataclysmHttp

/-! ### HTTP response serialization (src/cataclysm/src/http/response.rs)

`Response` carries a protocol string, a numeric status with reason phrase, a
header multimap (`HashMap<String, Vec<String>>`, modelled as an association
list — serialization iterates the map, and the property at stake, how many
`Content-Length` values appear, does not depend on iteration order) and body
bytes. -/

structure Response where
  protocol : List Char
  statusCode : Nat
  statusText : List Char
  headers : List (List Char × List (List Char))
  content : List Nat

def contentLengthKey : List Char := ("Content-Length").data

/-- `headers.entry(k).or_insert_with(Vec::new).push(v)`: append `v` to the
value vector of `k`, inserting an entry when absent. -/
def entryPush : List (List Char × List (List Char)) → List Char → List Char →
    List (List Char × List (List Char))
  | [], k, v => [(k, [v])]
  | (k0, vs) :: rest, k, v =>
    if k0 = k then (k0, vs ++ [v]) :: rest
    else (k0, vs) :: entryPush rest k v

/-- `HashMap::get` on the header multimap. -/
def lookupHeader : List (List Char × List (List Char)) → List Char →
    Option (List (List Char))
  | [], _ => none
  | (k0, vs) :: rest, k => if k0 = k then some vs else lookupHeader rest k

/-- UTF-8 encoding of one character (RFC 3629). -/
def utf8EncodeChar (c : Char) : List Nat :=
  let n := c.toNat
  if n < 0x80 then [n]
  else if n < 0x800 then [0xC0 ||| (n >>> 6), 0x80 ||| (n &&& 0x3F)]
  else if n < 0x10000 then
    [0xE0 ||| (n >>> 12), 0x80 ||| ((n >>> 6) &&& 0x3F), 0x80 ||| (n &&& 0x3F)]
  else
    [0xF0 ||| (n >>> 18), 0x80 ||| ((n >>> 12) &&& 0x3F),
      0x80 ||| ((n >>> 6) &&& 0x3F), 0x80 ||| (n &&& 0x3F)]

/-- `String::into_bytes`. -/
def strBytes (s : List Char) : List Nat := s.flatMap utf8EncodeChar

/-- `format!("{}", n)` for a natural number. -/
def natToChars (n : Nat) : List Char := Nat.toDigits 10 n

def crlf : List Char := ['\r', '\n']

/-- The header map after the serializer's unconditional
`self.headers.entry("Content-Length").or_insert_with(Vec::new).push(len)`. -/
def serializedHeaders (r : Response) : List (List Char × List (List Char)) :=
  entryPush r.headers contentLengthKey (natToChars r.content.length)

/-- `Response::serialize`: status line, then one `Name: Value` line per header
value (after the `Content-Length` push above), a blank line, and the body. -/
def serializeResponse (r : Response) : List Nat :=
  let statusLine :=
    r.protocol ++ [' '] ++ natToChars r.statusCode ++ [' '] ++ r.statusText ++ crlf
  let headerBlock := (serializedHeaders r).foldl (fun acc kv =>
      kv.2.foldl (fun acc2 v => acc2 ++ kv.1 ++ [':', ' '] ++ v ++ crlf) acc) statusLine
  strBytes (headerBlock ++ crlf) ++ r.content

/-- Occurrences of `pat` as a contiguous block inside `l`. -/
def countSublist (pat l : List Nat) : Nat :=
  (List.range (l.length + 1)).countP (fun i => pat.isPrefixOf (l.drop i))

theorem lookupHeader_entryPush (hs : List (List Char × List (List Char)))
    (k : List Char) (v : List Char) :
    lookupHeader (entryPush hs k v) k =
      some ((lookupHeader hs k).getD [] ++ [v]) := by
  induction hs with
  | nil => simp [entryPush, lookupHeader]
  | cons kv rest ih =>
    obtain ⟨k0, vs⟩ := kv
    by_cases h : k0 = k
    · simp [entryPush, lookupHeader, h]
    · simp [entryPush, lookupHeader, h, ih]

namespace Claims

/-! ### Claim C2: `Content-Length` on serialization -/

/-- A response that already carries `Content-Length: 5` but a 6-byte body. -/
def c2response : Response :=
  { protocol := ("HTTP/1.1").data
    statusCode := 200
    statusText := ("OK").data
    headers := [(contentLengthKey, [("5").data])]
    content := strBytes ("hello!").data }

/-- C2 counterexample: the serializer pushes the body length
*unconditionally* (`entry(..).or_insert_with(..).push(..)`), so a response
that already carries a `Content-Length` header is serialized with TWO
`Content-Length:` lines, not the single pre-existing one the claim
promises. -/
theorem c2_counterexample :
    countSublist (strBytes ("Content-Length:").data) (serializeResponse c2response) = 2 ∧
    (2 : Nat) ≠ 1 := by
  constructor
  · rfl
  · decide

/-- C2 (amended): serialization always appends one more `Content-Length`
value equal to the body length; the pre-existing values are kept in front of
it, so a response that already carries the header is serialized with both
values. -/
theorem c2_content_length_appended (r : Response) :
    lookupHeader (serializedHeaders r) contentLengthKey =
      some ((lookupHeader r.headers contentLengthKey).getD []
        ++ [natToChars r.content.length]) :=
  lookupHeader_entryPush r.headers contentLengthKey (natToChars r.content.length)

end Claims

end CataclysmHttp

namespace CataclysmServer

/-! ### Connection dispatcher upgrade check (src/src/server.rs, `Server::dispatch`)

In this revision of the crate the request headers are a
`HashMap<String, String>` (one value per name, last insert wins); lookups are
modelled on an association list.  The upgrade check at the top of `dispatch`
is

```text
request.headers.get("Upgrade").map(|v| v == "websocket").unwrap_or(false)
  && request.headers.get("Connection")
       .map(|v| v == "Upgrade" || v == "keep-alive, Upgrade").unwrap_or(false)
```

followed by `if let Some(nonce) = request.headers.get("Sec-WebSocket-Key")`
with a `400 Bad Request` reply in the `else` arm. -/

def lookupH : List (List Char × List Char) → List Char → Option (List Char)
  | [], _ => none
  | (k0, v) :: rest, k => if k0 = k then some v else lookupH rest k

def upgradeKey : List Char := ("Upgrade").data
def websocketVal : List Char := ("websocket").data
def connectionKey : List Char := ("Connection").data
def connKeepAliveUpgrade : List Char := ("keep-alive, Upgrade").data
def secWebSocketKey : List Char := ("Sec-WebSocket-Key").data

/-- The boolean guard of the upgrade branch: `Upgrade` must equal
`websocket`, and `Connection` must equal *exactly* `Upgrade` or
`keep-alive, Upgrade`. -/
def upgradeRequested (headers : List (List Char × List Char)) : Bool :=
  (((lookupH headers upgradeKey).map (fun v => decide (v = websocketVal))).getD false) &&
  (((lookupH headers connectionKey).map
    (fun v => decide (v = upgradeKey ∨ v = connKeepAliveUpgrade))).getD false)

/-- Where the dispatcher goes from the parsed request headers:
`wsHandshake` means the upgrade branch computed the accept key and looks for
a stream handler; `wsBadRequest` the branch was taken but
`Sec-WebSocket-Key` was missing (400 reply); `normal` the plain
resolve-and-execute path. -/
inductive DispatchOutcome where
  | wsHandshake
  | wsBadRequest
  | normal
deriving DecidableEq

def dispatchUpgradeDecision (headers : List (List Char × List Char)) : DispatchOutcome :=
  if upgradeRequested headers then
    match lookupH headers secWebSocketKey with
    | some _ => .wsHandshake
    | none => .wsBadRequest
  else .normal

/-- Does `pat` occur contiguously inside `l`?  (Used to state the claim's
"contains the token Upgrade" premise.) -/
def containsSeq (pat l : List Char) : Bool :=
  (List.range (l.length + 1)).any (fun i => pat.isPrefixOf (l.drop i))

namespace Claims

/-! ### Claim C5: upgrade detection -/

/-- Headers whose `Connection` value contains the token `Upgrade` but is not
one of the two exact strings the code compares against. -/
def c5headers : List (List Char × List Char) :=
  [(upgradeKey, websocketVal),
   (connectionKey, ("Upgrade, keep-alive").data),
   (secWebSocketKey, ("dGhlIHNhbXBsZSBub25jZQ==").data)]

/-- C5 counterexample: for `Connection: Upgrade, keep-alive` — a value that
does contain the token `Upgrade`, as the claim requires — the dispatcher does
NOT branch into the WebSocket handshake, because the code compares the whole
`Connection` value for equality with `"Upgrade"` or `"keep-alive, Upgrade"`
only. -/
theorem c5_counterexample :
    containsSeq upgradeKey (("Upgrade, keep-alive").data) = true ∧
    dispatchUpgradeDecision c5headers = .normal ∧
    DispatchOutcome.normal ≠ .wsHandshake := by
  refine ⟨by decide, by decide, by decide⟩

/-- C5 (amended): the dispatcher branches into the WebSocket handshake
exactly when `Upgrade` equals `websocket` and the `Connection` value is
*exactly* `Upgrade` or *exactly* `keep-alive, Upgrade`; and when that branch
is taken with `Sec-WebSocket-Key` missing, the server responds
`400 Bad Request`. -/
theorem c5_upgrade_branch (headers : List (List Char × List Char)) :
    (dispatchUpgradeDecision headers ≠ .normal ↔
      lookupH headers upgradeKey = some websocketVal ∧
      (lookupH headers connectionKey = some upgradeKey ∨
        lookupH headers connectionKey = some connKeepAliveUpgrade)) ∧
    (upgradeRequested headers = true → lookupH headers secWebSocketKey = none →
      dispatchUpgradeDecision headers = .wsBadRequest) := by
  constructor
  · cases hq : lookupH headers upgradeKey with
    | none => simp [dispatchUpgradeDecision, upgradeRequested, hq]
    | some v =>
      cases hc : lookupH headers connectionKey with
      | none => simp [dispatchUpgradeDecision, upgradeRequested, hq, hc]
      | some w =>
        by_cases h1 : v = websocketVal
        · by_cases h2 : w = upgradeKey ∨ w = connKeepAliveUpgrade
          · have hg : upgradeRequested headers = true := by
              simp [upgradeRequested, hq, hc, h1, h2]
            simp only [dispatchUpgradeDecision, hg, if_true]
            cases lookupH headers secWebSocketKey <;> simp [hq, hc, h1, h2]
          · simp [not_or] at h2
            have hg : upgradeRequested headers = false := by
              simp only [upgradeRequested, hq, hc, Option.map_some, Option.getD_some]
              simp [h2.1, h2.2]
            simp [dispatchUpgradeDecision, hg, hq, hc, h2.1, h2.2]
        · have hg : upgradeRequested headers = false := by
            simp only [upgradeRequested, hq, hc, Option.map_some, Option.getD_some]
            simp [h1]
          simp [dispatchUpgradeDecision, hg, hq, hc, h1]
  · intro hu hk
    simp [dispatchUpgradeDecision, hu, hk]

/-- Witness for C5: headers with `Connection: keep-alive, Upgrade` and no
`Sec-WebSocket-Key` make the dispatcher reply 400, by the amended theorem. -/
theorem c5_upgrade_branch_witness :
    dispatchUpgradeDecision
      [(upgradeKey, websocketVal), (connectionKey, connKeepAliveUpgrade)] =
      .wsBadRequest :=
  (c5_upgrade_branch
    [(upgradeKey, websocketVal), (connectionKey, connKeepAliveUpgrade)]).2
    (by decide) (by decide)

end Claims

end CataclysmServer

namespace CataclysmBranch

open Cataclysm

/-! ### Route tree (src/cataclysm/src/branch.rs)

Handlers and middleware functions are opaque async closures in the source;
they are modelled by `Nat` identifiers.  A compiled regex is modelled by its
source string together with an abstract match predicate (the `regex` crate is
an external collaborator); `Branch::new` receives the compiler as the
`compile` parameter. -/

/-- HTTP method (src/src/http/method.rs; re-exported by the cataclysm
crate). -/
inductive Method where
  | Get | Post | Put | Head | Delete | Patch | Options | Trace | Connect
  | Custom (s : List Char)
deriving DecidableEq

/-- A compiled regex: its source (`Regex::as_str`) and its match
predicate. -/
structure Pat where
  src : List Char
  isMatch : List Char → Bool

/-- The mutable builder tree (`struct Branch<T>`), with the `stream`
feature's handler slot included. -/
inductive Branch where
  | mk (exactBranches : List (List Char × Branch))
       (patternBranches : List (Pat × Branch))
       (variableBranch : Option (List Char × Branch))
       (source : List Char)
       (methodCallbacks : List (Method × Nat))
       (defaultMethodCallback : Option Nat)
       (defaultCallback : Option Nat)
       (filesCallback : Option Nat)
       (layers : List Nat)
       (streamHandler : Option Nat)

def Branch.exactBranches : Branch → List (List Char × Branch)
  | .mk e _ _ _ _ _ _ _ _ _ => e

def Branch.patternBranches : Branch → List (Pat × Branch)
  | .mk _ p _ _ _ _ _ _ _ _ => p

def Branch.variableBranch : Branch → Option (List Char × Branch)
  | .mk _ _ v _ _ _ _ _ _ _ => v

def Branch.source : Branch → List Char
  | .mk _ _ _ s _ _ _ _ _ _ => s

def Branch.methodCallbacks : Branch → List (Method × Nat)
  | .mk _ _ _ _ m _ _ _ _ _ => m

def Branch.defaultMethodCallback : Branch → Option Nat
  | .mk _ _ _ _ _ d _ _ _ _ => d

def Branch.defaultCallback : Branch → Option Nat
  | .mk _ _ _ _ _ _ d _ _ _ => d

def Branch.filesCallback : Branch → Option Nat
  | .mk _ _ _ _ _ _ _ f _ _ => f

def Branch.layers : Branch → List Nat
  | .mk _ _ _ _ _ _ _ _ l _ => l

def Branch.streamHandler : Branch → Option Nat
  | .mk _ _ _ _ _ _ _ _ _ s => s

/-- The frozen tree (`struct PureBranch<T>`): the builder without its
`source` field. -/
inductive PureBranch where
  | mk (exactBranches : List (List Char × PureBranch))
       (patternBranches : List (Pat × PureBranch))
       (variableBranch : Option (List Char × PureBranch))
       (methodCallbacks : List (Method × Nat))
       (defaultMethodCallback : Option Nat)
       (defaultCallback : Option Nat)
       (filesCallback : Option Nat)
       (layers : List Nat)
       (streamHandler : Option Nat)

def PureBranch.exactBranches : PureBranch → List (List Char × PureBranch)
  | .mk e _ _ _ _ _ _ _ _ => e

def PureBranch.patternBranches : PureBranch → List (Pat × PureBranch)
  | .mk _ p _ _ _ _ _ _ _ => p

def PureBranch.variableBranch : PureBranch → Option (List Char × PureBranch)
  | .mk _ _ v _ _ _ _ _ _ => v

def PureBranch.methodCallbacks : PureBranch → List (Method × Nat)
  | .mk _ _ _ m _ _ _ _ _ => m

def PureBranch.defaultMethodCallback : PureBranch → Option Nat
  | .mk _ _ _ _ d _ _ _ _ => d

def PureBranch.defaultCallback : PureBranch → Option Nat
  | .mk _ _ _ _ _ d _ _ _ => d

def PureBranch.filesCallback : PureBranch → Option Nat
  | .mk _ _ _ _ _ _ f _ _ => f

def PureBranch.layers : PureBranch → List Nat
  | .mk _ _ _ _ _ _ _ l _ => l

def PureBranch.streamHandler : PureBranch → Option Nat
  | .mk _ _ _ _ _ _ _ _ s => s

/-- `HashMap::get` on a string-keyed association list. -/
def lookupAssoc {α : Type} : List (List Char × α) → List Char → Option α
  | [], _ => none
  | (k0, v) :: rest, k => if k0 = k then some v else lookupAssoc rest k

/-- In-place update of the entry under an existing key. -/
def updateAssoc {α : Type} : List (List Char × α) → List Char → α → List (List Char × α)
  | [], _, _ => []
  | (k0, v0) :: rest, k, v =>
    if k0 = k then (k0, v) :: rest else (k0, v0) :: updateAssoc rest k v

/-- Consuming a token strictly shortens the string (the cut point is at
position at least 1 and the slash itself is consumed too). -/
theorem tokenizeOnceAux_rest_lt (prev : Char) (l t r : List Char)
    (h : tokenizeOnceAux prev l = some (t, r)) : r.length < l.length := by
  induction l generalizing prev t with
  | nil => simp [tokenizeOnceAux] at h
  | cons c rest ih =>
    simp only [tokenizeOnceAux] at h
    by_cases hc : c = '/' ∧ prev ≠ '\\'
    · rw [if_pos hc] at h
      obtain ⟨h1, h2⟩ := Prod.mk.injEq _ _ _ _ ▸ Option.some.injEq _ _ ▸ h
      subst h2
      simp
    · rw [if_neg hc] at h
      cases hq : tokenizeOnceAux c rest with
      | none => rw [hq] at h; cases h
      | some pr =>
        obtain ⟨tok, r0⟩ := pr
        rw [hq] at h
        simp only [Option.some.injEq, Prod.mk.injEq] at h
        obtain ⟨h1, h2⟩ := h
        subst h2
        exact Nat.lt_succ_of_lt (ih c tok hq)

theorem tokenizeOnce_rest_lt (l t r : List Char)
    (h : tokenizeOnce l = some (t, r)) : r.length < l.length := by
  cases l with
  | nil => simp [tokenizeOnce] at h
  | cons c rest =>
    simp only [tokenizeOnce] at h
    cases hq : tokenizeOnceAux c rest with
    | none => rw [hq] at h; cases h
    | some pr =>
      obtain ⟨tok, r0⟩ := pr
      rw [hq] at h
      simp only [Option.some.injEq, Prod.mk.injEq] at h
      obtain ⟨h1, h2⟩ := h
      subst h2
      exact Nat.lt_succ_of_lt (tokenizeOnceAux_rest_lt c rest tok r0 hq)

theorem trimStartSlashes_length_le (l : List Char) :
    (trimStartSlashes l).length ≤ l.length := by
  induction l with
  | nil => simp [trimStartSlashes]
  | cons c rest ih =>
    simp only [trimStartSlashes, List.dropWhile]
    by_cases h : c = '/'
    · simp only [h]
      simp only [trimStartSlashes] at ih
      calc (List.dropWhile (fun x => decide (x = '/')) rest).length
          ≤ rest.length := by simpa using ih
        _ ≤ rest.length + 1 := by omega
    · simp [h]

theorem trimStartSlashes_ne_nil (l : List Char) (h : trimStartSlashes l ≠ []) :
    l ≠ [] := by
  intro hq
  subst hq
  exact h rfl

inductive BranchKind where
  | Exact | Pattern | Default

/-- Does the token match `^\{:.*\}$`?  (`.*` does not cross newlines.) -/
def defaultReMatch : List Char → Bool
  | '\x7b' :: ':' :: rest =>
    decide (rest ≠ []) && decide (rest.getLastD ' ' = '\x7d') &&
      rest.dropLast.all (fun c => decide (c ≠ '\n'))
  | _ => false

/-- Does the token match `^\{regex:.*\}$`? -/
def regexReMatch : List Char → Bool
  | '\x7b' :: 'r' :: 'e' :: 'g' :: 'e' :: 'x' :: ':' :: rest =>
    decide (rest ≠ []) && decide (rest.getLastD ' ' = '\x7d') &&
      rest.dropLast.all (fun c => decide (c ≠ '\n'))
  | _ => false

/-- `Branch::clasify`. -/
def clasify (candidate : List Char) : BranchKind :=
  if defaultReMatch candidate then .Default
  else if regexReMatch candidate then .Pattern
  else .Exact

/-- `trim_start_matches("{regex:")`: strip every leading occurrence. -/
def trimRegexOpen : List Char → List Char
  | '\x7b' :: 'r' :: 'e' :: 'g' :: 'e' :: 'x' :: ':' :: rest => trimRegexOpen rest
  | l => l

/-- `trim_start_matches("{:")`: strip every leading occurrence. -/
def trimVarOpen : List Char → List Char
  | '\x7b' :: ':' :: rest => trimVarOpen rest
  | l => l

/-- `trim_end_matches("}")`: strip every trailing closing brace. -/
def trimCloseBraces (l : List Char) : List Char :=
  (l.reverse.dropWhile (· = '\x7d')).reverse

/-- A branch with no children and no callbacks, recording its source path. -/
def emptyBranch (src : List Char) : Branch :=
  .mk [] [] none src [] none none none [] none

/-- Attach the classified child under a fresh node (the `match clasify`
block of `Branch::new`). -/
def attachChild (compile : List Char → List Char → Bool) (trail base : List Char)
    (child : Branch) : Branch :=
  match clasify base with
  | .Exact => .mk [(base, child)] [] none trail [] none none none [] none
  | .Pattern =>
    let src := trimCloseBraces (trimRegexOpen base)
    .mk [] [(⟨src, compile src⟩, child)] none trail [] none none none [] none
  | .Default =>
    .mk [] [] (some (trimCloseBraces (trimVarOpen base), child)) trail
      [] none none none [] none

/-- `Branch::new`: tokenize the (slash-trimmed) path and build a linear chain
of nodes, one per token. -/
def Branch.newB (compile : List Char → List Char → Bool) (trail : List Char) : Branch :=
  match h : tokenizeOnce (trimStartSlashes trail) with
  | some (base, rest) => attachChild compile trail base (Branch.newB compile rest)
  | none =>
    if trimStartSlashes trail = [] then emptyBranch trail
    else attachChild compile trail (trimStartSlashes trail) (Branch.newB compile [])
termination_by trail.length
decreasing_by
  · exact lt_of_lt_of_le (tokenizeOnce_rest_lt _ _ _ h) (trimStartSlashes_length_le trail)
  · have hne : trail ≠ [] := by
      intro hq
      subst hq
      simp_all [trimStartSlashes]
    cases trail with
    | nil => exact absurd rfl hne
    | cons c rest => simp

/-- `method_callbacks.entry(method).or_insert(callback)` folded over the
right-hand side's map: left values win, unseen keys are added. -/
def mergeMethods (ls : List (Method × Nat)) : List (Method × Nat) → List (Method × Nat)
  | [] => ls
  | (m, cb) :: rest =>
    if (ls.find? (fun p => p.1 = m)).isSome then mergeMethods ls rest
    else mergeMethods (ls ++ [(m, cb)]) rest

/-- Split a pattern list at the first entry whose regex source equals
`src` (the `lhs_pattern.as_str() == rhs_pattern.as_str()` scan). -/
def splitAtFirstSrc (l : List (Pat × Branch)) (src : List Char) :
    Option (List (Pat × Branch) × (Pat × Branch) × List (Pat × Branch)) :=
  match l with
  | [] => none
  | (p0, b0) :: rest =>
    if p0.src = src then some ([], (p0, b0), rest)
    else
      match splitAtFirstSrc rest src with
      | some (pre, hit, post) => some ((p0, b0) :: pre, hit, post)
      | none => none

mutual

/-- `Branch::merge_mut`: merge `r` into `l`, priority to `l`.  Exact children
merge recursively per key; pattern children merge into the first entry with a
literally equal regex source, otherwise they are appended at the end in
order; the variable child, the default/unmatched-method/files/stream slots
take the left value when present; method callbacks are merged per key with
left priority.  The left node's `source` and `layers` are untouched (the
destructuring of `other` discards them). -/
def Branch.mergeMut (l r : Branch) : Branch :=
  match r with
  | .mk rex rpat rvar _rsrc rmc rdmc rdc rfc _rly rsh =>
    Branch.mk
      (mergeExacts l.exactBranches rex)
      (mergePatternsAux l.patternBranches [] rpat)
      (match l.variableBranch with
        | some v => some v
        | none => rvar)
      l.source
      (mergeMethods l.methodCallbacks rmc)
      (match l.defaultMethodCallback with
        | some d => some d
        | none => rdmc)
      (match l.defaultCallback with
        | some d => some d
        | none => rdc)
      (match l.filesCallback with
        | some f => some f
        | none => rfc)
      l.layers
      (match l.streamHandler with
        | some s => some s
        | none => rsh)

/-- The exact-children loop of `merge_mut`: merge recursively under an
existing key, insert otherwise. -/
def mergeExacts (ls : List (List Char × Branch)) :
    List (List Char × Branch) → List (List Char × Branch)
  | [] => ls
  | (base, rb) :: rest =>
    match lookupAssoc ls base with
    | some lb => mergeExacts (updateAssoc ls base (Branch.mergeMut lb rb)) rest
    | none => mergeExacts (ls ++ [(base, rb)]) rest

/-- The pattern-children loop of `merge_mut`: `add` accumulates (reversed)
the right-hand patterns with no literal source match, appended at the end. -/
def mergePatternsAux (ls add : List (Pat × Branch)) :
    List (Pat × Branch) → List (Pat × Branch)
  | [] => ls ++ add.reverse
  | (rp, rb) :: rest =>
    match splitAtFirstSrc ls rp.src with
    | some (pre, (lp, lb), post) =>
      mergePatternsAux (pre ++ (lp, Branch.mergeMut lb rb) :: post) add rest
    | none => mergePatternsAux ls ((rp, rb) :: add) rest

end

mutual

/-- `Branch::purify`: drop the `source` field, recursively. -/
def Branch.purify : Branch → PureBranch
  | .mk ex pat var _src mc dmc dc fc ly sh =>
    PureBranch.mk (purifyExacts ex) (purifyPats pat)
      (match var with
        | some (id, b) => some (id, Branch.purify b)
        | none => none)
      mc dmc dc fc ly sh

def purifyExacts : List (List Char × Branch) → List (List Char × PureBranch)
  | [] => []
  | (base, b) :: rest => (base, Branch.purify b) :: purifyExacts rest

def purifyPats : List (Pat × Branch) → List (Pat × PureBranch)
  | [] => []
  | (p, b) :: rest => (p, Branch.purify b) :: purifyPats rest

end

/-- `HashMap::insert` on the method map (overwrite an existing key, append a
new one). -/
def insertMethod (l : List (Method × Nat)) (m : Method) (cb : Nat) : List (Method × Nat) :=
  match l with
  | [] => [(m, cb)]
  | (m0, cb0) :: rest =>
    if m0 = m then (m0, cb) :: rest else (m0, cb0) :: insertMethod rest m cb

/-- `format!("{{regex:{}}}", src)`. -/
def regexToken (src : List Char) : List Char :=
  '\x7b' :: 'r' :: 'e' :: 'g' :: 'e' :: 'x' :: ':' :: (src ++ ['\x7d'])

/-- `format!("{{:{}}}", id)`. -/
def varToken (id : List Char) : List Char :=
  '\x7b' :: ':' :: (id ++ ['\x7d'])

/-- First pattern child whose reconstructed `{regex:…}` token equals the
base token (the pattern scan of `get_branch`). -/
def splitAtFirstSrc2 (l : List (Pat × Branch)) (base : List Char) :
    Option (List (Pat × Branch) × (Pat × Branch) × List (Pat × Branch)) :=
  match l with
  | [] => none
  | (p0, b0) :: rest =>
    if regexToken p0.src = base then some ([], (p0, b0), rest)
    else
      match splitAtFirstSrc2 rest base with
      | some (pre, hit, post) => some ((p0, b0) :: pre, hit, post)
      | none => none

mutual

/-- `Branch::get_branch` combined with the mutation the builder methods apply
through the returned `&mut`: descend along `trail` and apply `f` to the node
found there; `none` models the `None` case (on which the callers
`unwrap`). -/
def Branch.updateAt (b : Branch) (trail : List Char) (f : Branch → Branch) : Option Branch :=
  match h : tokenizeOnce (trimStartSlashes trail) with
  | some (base, rest) => updateChild b base rest f
  | none =>
    if trimStartSlashes trail = [] then some (f b)
    else updateChild b (trimStartSlashes trail) [] f
termination_by 2 * trail.length + 1
decreasing_by
  · have h1 := tokenizeOnce_rest_lt _ _ _ h
    have h2 := trimStartSlashes_length_le trail
    omega
  · rename_i hq
    have hne : trail ≠ [] := trimStartSlashes_ne_nil trail hq
    cases trail with
    | nil => exact absurd rfl hne
    | cons c rest2 => simp only [List.length_cons, List.length_nil]; omega

/-- Child descent of `get_branch`: exact children by key, pattern children by
the reconstructed `{regex:…}` token, the variable child by the reconstructed
`{:…}` token. -/
def updateChild (b : Branch) (base rest : List Char) (f : Branch → Branch) : Option Branch :=
  match lookupAssoc b.exactBranches base with
  | some child =>
    (Branch.updateAt child rest f).map (fun c =>
      Branch.mk (updateAssoc b.exactBranches base c) b.patternBranches b.variableBranch
        b.source b.methodCallbacks b.defaultMethodCallback b.defaultCallback
        b.filesCallback b.layers b.streamHandler)
  | none =>
    match splitAtFirstSrc2 b.patternBranches base with
    | some (pre, (p0, child), post) =>
      (Branch.updateAt child rest f).map (fun c =>
        Branch.mk b.exactBranches (pre ++ (p0, c) :: post) b.variableBranch
          b.source b.methodCallbacks b.defaultMethodCallback b.defaultCallback
          b.filesCallback b.layers b.streamHandler)
    | none =>
      match b.variableBranch with
      | some (id, child) =>
        if varToken id = base then
          (Branch.updateAt child rest f).map (fun c =>
            Branch.mk b.exactBranches b.patternBranches (some (id, c))
              b.source b.methodCallbacks b.defaultMethodCallback b.defaultCallback
              b.filesCallback b.layers b.streamHandler)
        else none
      | none => none
termination_by 2 * rest.length + 2
decreasing_by all_goals omega

end

/-- A method handler (`MethodHandler<T>`): the bound methods and the opaque
handler. -/
structure MethodHandler where
  methods : List Method
  handler : Nat

/-- `Branch::with`: insert the handler under each bound method at the top
node of the branch's source path (the callers `unwrap` the `get_branch`
result, so `none` models that panic path). -/
def Branch.withMethod (b : Branch) (mh : MethodHandler) : Option Branch :=
  b.updateAt b.source (fun t =>
    Branch.mk t.exactBranches t.patternBranches t.variableBranch t.source
      (mh.methods.foldl (fun acc m => insertMethod acc m mh.handler) t.methodCallbacks)
      t.defaultMethodCallback t.defaultCallback t.filesCallback t.layers t.streamHandler)

/-- `Branch::unmatched_method_to`. -/
def Branch.unmatchedMethodTo (b : Branch) (cb : Nat) : Option Branch :=
  b.updateAt b.source (fun t =>
    Branch.mk t.exactBranches t.patternBranches t.variableBranch t.source
      t.methodCallbacks (some cb) t.defaultCallback t.filesCallback t.layers t.streamHandler)

/-- `Branch::defaults_to`. -/
def Branch.defaultsTo (b : Branch) (cb : Nat) : Option Branch :=
  b.updateAt b.source (fun t =>
    Branch.mk t.exactBranches t.patternBranches t.variableBranch t.source
      t.methodCallbacks t.defaultMethodCallback (some cb) t.filesCallback t.layers
      t.streamHandler)

/-- `Branch::files`. -/
def Branch.filesOp (b : Branch) (cb : Nat) : Option Branch :=
  b.updateAt b.source (fun t =>
    Branch.mk t.exactBranches t.patternBranches t.variableBranch t.source
      t.methodCallbacks t.defaultMethodCallback t.defaultCallback (some cb) t.layers
      t.streamHandler)

/-- `Branch::layer`: push the middleware at the end of the top node's layer
list. -/
def Branch.layerAdd (b : Branch) (f : Nat) : Option Branch :=
  b.updateAt b.source (fun t =>
    Branch.mk t.exactBranches t.patternBranches t.variableBranch t.source
      t.methodCallbacks t.defaultMethodCallback t.defaultCallback t.filesCallback
      (t.layers ++ [f]) t.streamHandler)

/-- `Branch::stream_handler`. -/
def Branch.streamHandlerSet (b : Branch) (cb : Nat) : Option Branch :=
  b.updateAt b.source (fun t =>
    Branch.mk t.exactBranches t.patternBranches t.variableBranch t.source
      t.methodCallbacks t.defaultMethodCallback t.defaultCallback t.filesCallback
      t.layers (some cb))

/-- `Branch::nest`: merge `other` into the top node of the base path. -/
def Branch.nestB (b other : Branch) : Option Branch :=
  b.updateAt b.source (fun t => t.mergeMut other)

/-- `Branch::merge`. -/
def Branch.mergeB (b other : Branch) : Branch := b.mergeMut other

/-! #### Resolution (`PureBranch::callback_information` and `pipeline`) -/

/-- The data carried while unwinding the resolution (`CallbackInformation`),
without the `full_log` tracker. -/
inductive CallbackInformation where
  | ResponseHandler (callback : Nat) (layers : List Nat) (variableIndicators : List Bool)
  | StreamHandler (callback : Nat) (variableIndicators : List Bool)
deriving DecidableEq

/-- `CallbackInformation::update`: extend the layer list with the current
node's layers and push the variable indicator. -/
def CallbackInformation.update : CallbackInformation → List Nat → Bool → CallbackInformation
  | .ResponseHandler cb prevLayers vi, ls, isVar =>
    .ResponseHandler cb (prevLayers ++ ls) (vi ++ [isVar])
  | .StreamHandler cb vi, _ls, isVar => .StreamHandler cb (vi ++ [isVar])

def lookupMethod : List (Method × Nat) → Method → Option Nat
  | [], _ => none
  | (m0, cb) :: rest, m => if m0 = m then some cb else lookupMethod rest m

/-- `std::path::Path::new(trail).extension().is_some()` for ordinary
component names: the last non-empty `/`-separated component contains a `.`
after its first character. -/
def hasExtension (l : List Char) : Bool :=
  let name := ((l.reverse.dropWhile (· = '/')).takeWhile (· ≠ '/')).reverse
  decide (name ≠ []) && (name.drop 1).any (fun c => decide (c = '.'))

mutual

/-- `PureBranch::callback_information`: at the endpoint, try the method map,
then the unmatched-method handler, then the default handler, then the stream
handler; otherwise split off the head token and descend. -/
def PureBranch.callbackInformation (t : PureBranch) (trail : List Char) (m : Method) :
    Option CallbackInformation :=
  match h : tokenizeOnce (trimStartSlashes trail) with
  | some (base, rest) => ciStep t (trimStartSlashes trail) base rest m
  | none =>
    if trimStartSlashes trail = [] then
      match lookupMethod t.methodCallbacks m with
      | some mc => some (.ResponseHandler mc t.layers [])
      | none =>
        match t.defaultMethodCallback with
        | some dmc => some (.ResponseHandler dmc t.layers [])
        | none =>
          match t.defaultCallback with
          | some dc => some (.ResponseHandler dc t.layers [])
          | none =>
            match t.streamHandler with
            | some sh => some (.StreamHandler sh [])
            | none => none
    else ciStep t (trimStartSlashes trail) (trimStartSlashes trail) [] m
termination_by 2 * trail.length + 1
decreasing_by
  · have h1 := tokenizeOnce_rest_lt _ _ _ h
    have h2 := trimStartSlashes_length_le trail
    omega
  · rename_i hq
    have hne : trail ≠ [] := trimStartSlashes_ne_nil trail hq
    cases trail with
    | nil => exact absurd rfl hne
    | cons c rest2 => simp only [List.length_cons, List.length_nil]; omega

/-- The child-matching step of `callback_information`: an existing exact
child for the head is followed exclusively; otherwise the first pattern child
whose regex matches the head is followed; otherwise the variable child; when
nothing deeper resolved, fall back to the files handler (when the remaining
trail has an extension) and then to the default handler. -/
def ciStep (t : PureBranch) (trimmedTrail base rest : List Char) (m : Method) :
    Option CallbackInformation :=
  let resultIsVar : Option CallbackInformation × Bool :=
    match lookupAssoc t.exactBranches base with
    | some branch => (PureBranch.callbackInformation branch rest m, false)
    | none =>
      let r0 :=
        match t.patternBranches.find? (fun pb => pb.1.isMatch base) with
        | some (_, branch) => PureBranch.callbackInformation branch rest m
        | none => none
      match r0 with
      | some r => (some r, true)
      | none =>
        match t.variableBranch with
        | some (_, branch) => (PureBranch.callbackInformation branch rest m, true)
        | none => (none, true)
  match resultIsVar with
  | (some cInfo, isVar) => some (cInfo.update t.layers isVar)
  | (none, _) =>
    let fileResult : Option CallbackInformation :=
      if hasExtension trimmedTrail then
        match t.filesCallback with
        | some fc => some (.ResponseHandler fc t.layers [])
        | none => none
      else none
    match fileResult with
    | some r => some r
    | none =>
      match t.defaultCallback with
      | some dc => some (.ResponseHandler dc t.layers [])
      | none => none
termination_by 2 * rest.length + 2
decreasing_by all_goals omega

end

/-- The middleware pipeline (`enum Pipeline<T>`): opaque layer and core
functions. -/
inductive Pipeline where
  | Core (h : Nat)
  | Layer (f : Nat) (inner : Pipeline)
deriving DecidableEq

/-- The fold in `PureBranch::pipeline`: start with the core and wrap one
`Layer` per function, in list order (so the LAST list element ends up
outermost). -/
def buildPipeline (cb : Nat) (layers : List Nat) : Pipeline :=
  layers.foldl (fun acc f => .Layer f acc) (.Core cb)

inductive PipelineKind where
  | NormalPipeline (p : Pipeline)
  | StreamPipeline (cb : Nat)
deriving DecidableEq

/-- The request fields the resolver reads and writes (`RequestHeader`):
`path` is `url.path()`. -/
structure Request where
  path : List Char
  method : Method
  depth : Nat
  variableIndices : List Nat
deriving DecidableEq

/-- `variable_indicators.iter().rev().enumerate().filter(snd).map(fst)`. -/
def variableIndicesOf (vi : List Bool) : List Nat :=
  ((vi.reverse.enum).filter (fun p => p.2)).map (fun p => p.1)

/-- `PureBranch::pipeline`: resolve, stamp `depth` and `variable_indices` on
the request, and fold the layer list into a pipeline. -/
def PureBranch.pipelineOf (t : PureBranch) (req : Request) : Option (Request × PipelineKind) :=
  match t.callbackInformation req.path req.method with
  | some (.ResponseHandler cb layers vi) =>
    some ({ req with depth := vi.length, variableIndices := variableIndicesOf vi },
      .NormalPipeline (buildPipeline cb layers))
  | some (.StreamHandler cb vi) =>
    some ({ req with depth := vi.length, variableIndices := variableIndicesOf vi },
      .StreamPipeline cb)
  | none => none

/-- The layers traversed by `Pipeline::execute`, outermost first. -/
def Pipeline.layerTrace : Pipeline → List Nat
  | .Core _ => []
  | .Layer f inner => f :: inner.layerTrace

def Pipeline.coreHandler : Pipeline → Nat
  | .Core h => h
  | .Layer _ inner => inner.coreHandler

def hexVal (c : Char) : Option Nat :=
  if '0' ≤ c ∧ c ≤ '9' then some (c.toNat - 48)
  else if 'a' ≤ c ∧ c ≤ 'f' then some (c.toNat - 87)
  else if 'A' ≤ c ∧ c ≤ 'F' then some (c.toNat - 55)
  else none

/-- Modelled from the `percent_encoding` collaborator crate:
`percent_decode_str` turns every `%XY` (two hex digits) into the byte it
denotes and leaves other characters untouched (the subsequent `decode_utf8`
is the identity on the decoded ASCII segments used here). -/
def percentDecode : List Char → List Char
  | '%' :: h1 :: h2 :: rest =>
    match hexVal h1, hexVal h2 with
    | some a, some b => Char.ofNat (a * 16 + b) :: percentDecode rest
    | _, _ => '%' :: percentDecode (h1 :: h2 :: rest)
  | c :: rest => c :: percentDecode rest
  | [] => []

/-- The typed `Path` extractor at tuple position `n`
(src/cataclysm/src/http/path.rs): token number `variable_indices[n]` of the
slash-trimmed request path, percent-decoded. -/
def pathExtract (req : Request) (n : Nat) : Option (List Char) :=
  let tokens := tokenize (trimStartSlashes req.path)
  match req.variableIndices.get? n with
  | none => none
  | some idx =>
    match tokens.get? idx with
    | none => none
    | some tok => some (percentDecode tok)

/-- The two-node tree of the layer-order claim: the root N1 carries the layers
`[l1a, l1b]` in registration order (`Branch::layer` pushes to the end of the
vector), its exact child `n2` (N2) carries `[l2a]` and a GET handler `h`. -/
def c1treeGen (l1a l1b l2a h : Nat) : PureBranch :=
  .mk [(['n', '2'], .mk [] [] none [(.Get, h)] none none none [l2a] none)]
    [] none [] none none none [l1a, l1b] none

/-- Resolving `/n2` on the layer-order tree collects the inner node's layers
first and then extends with the outer node's list. -/
theorem c1tree_ci (l1a l1b l2a h : Nat) :
    (c1treeGen l1a l1b l2a h).callbackInformation ['/', 'n', '2'] .Get =
      some (.ResponseHandler h [l2a, l1a, l1b] [false]) := by
  have h2 : PureBranch.callbackInformation (.mk [] [] none [(.Get, h)] none none none [l2a] none)
      [] .Get = some (.ResponseHandler h [l2a] []) := by
    simp [PureBranch.callbackInformation, Cataclysm.trimStartSlashes, Cataclysm.tokenizeOnce,
      lookupMethod, PureBranch.methodCallbacks, PureBranch.layers]
  have ht : Cataclysm.trimStartSlashes ['/', 'n', '2'] = ['n', '2'] := rfl
  have htok : Cataclysm.tokenizeOnce ['n', '2'] = none := rfl
  have hla : lookupAssoc (c1treeGen l1a l1b l2a h).exactBranches ['n', '2'] =
      some (.mk [] [] none [(.Get, h)] none none none [l2a] none) := rfl
  simp only [PureBranch.callbackInformation, ht, htok]
  rw [if_neg (by decide)]
  simp only [ciStep, hla]
  rw [h2]
  rfl

/-- The fold in `PureBranch::pipeline` over any accumulator. -/
theorem foldl_layer_trace (layers : List Nat) (acc : Pipeline) :
    (layers.foldl (fun a f => .Layer f a) acc).layerTrace =
      layers.reverse ++ acc.layerTrace := by
  induction layers generalizing acc with
  | nil => simp
  | cons x xs ih => simp [List.foldl_cons, ih, Pipeline.layerTrace]

/-- The pipeline traverses the collected layer list in reverse: the LAST
element of the collected list is the outermost layer. -/
theorem buildPipeline_layerTrace (cb : Nat) (layers : List Nat) :
    (buildPipeline cb layers).layerTrace = layers.reverse := by
  simp [buildPipeline, foldl_layer_trace, Pipeline.layerTrace]

theorem foldl_layer_core (layers : List Nat) (acc : Pipeline) :
    (layers.foldl (fun a f => .Layer f a) acc).coreHandler = acc.coreHandler := by
  induction layers generalizing acc with
  | nil => rfl
  | cons x xs ih => simp [List.foldl_cons, ih, Pipeline.coreHandler]

theorem buildPipeline_coreHandler (cb : Nat) (layers : List Nat) :
    (buildPipeline cb layers).coreHandler = cb := by
  rw [buildPipeline, foldl_layer_core]
  rfl

/-- One unfolding of `callback_information` when the head token is split
off. -/
theorem callbackInformation_cut (t : PureBranch) (trail base rest : List Char) (m : Method)
    (htok : Cataclysm.tokenizeOnce (Cataclysm.trimStartSlashes trail) = some (base, rest)) :
    PureBranch.callbackInformation t trail m =
      ciStep t (Cataclysm.trimStartSlashes trail) base rest m := by
  simp only [PureBranch.callbackInformation]
  split
  · next b r heq =>
    rw [htok] at heq
    obtain ⟨h1, h2⟩ := Prod.mk.injEq _ _ _ _ ▸ Option.some.injEq _ _ ▸ heq
    rw [h1, h2]
  · next heq => rw [htok] at heq; exact absurd heq (by simp)

/-- One unfolding of `callback_information` when the non-empty trimmed trail
has no cut point: the whole trail is matched as a single token. -/
theorem callbackInformation_noCut (t : PureBranch) (trail : List Char) (m : Method)
    (htok : Cataclysm.tokenizeOnce (Cataclysm.trimStartSlashes trail) = none)
    (hne : Cataclysm.trimStartSlashes trail ≠ []) :
    PureBranch.callbackInformation t trail m =
      ciStep t (Cataclysm.trimStartSlashes trail) (Cataclysm.trimStartSlashes trail) [] m := by
  simp only [PureBranch.callbackInformation]
  split
  · next b r heq => rw [htok] at heq; exact absurd heq (by simp)
  · rw [if_neg hne]

theorem percentDecode_cons_ne (c : Char) (rest : List Char) (hc : c ≠ '%') :
    percentDecode (c :: rest) = c :: percentDecode rest := by
  match rest with
  | [] => simp [percentDecode, hc]
  | [d] => simp [percentDecode, hc]
  | d :: e :: t => simp [percentDecode, hc]

/-- Percent-decoding is the identity on a `%`-free string. -/
theorem percentDecode_noPercent (l : List Char) (h : '%' ∉ l) : percentDecode l = l := by
  induction l with
  | nil => rfl
  | cons c rest ih =>
    have hc : c ≠ '%' := fun hq => h (hq ▸ List.mem_cons_self c rest)
    have h' : '%' ∉ rest := fun hq => h (List.mem_cons_of_mem c hq)
    rw [percentDecode_cons_ne c rest hc, ih h']

/-- A compiled pattern matching exactly the segment `a`. -/
def c4pat : Pat := ⟨['^', 'a', '$'], fun s => decide (s = ['a'])⟩

/-- A node with no children and no handlers at all. -/
def c4empty : PureBranch := .mk [] [] none [] none none none [] none

/-- A node carrying only a GET handler. -/
def c4handlerNode : PureBranch := .mk [] [] none [(.Get, 5)] none none none [] none

/-! The purified tree of the route `/a/\x7b:x\x7d/b/\x7b:y\x7d` with a GET
handler `7` at the endpoint, node by node. -/

def c6leaf : PureBranch := .mk [] [] none [(.Get, 7)] none none none [] none

def c6nodeY : PureBranch := .mk [] [] (some (['y'], c6leaf)) [] none none none [] none

def c6nodeB : PureBranch := .mk [(['b'], c6nodeY)] [] none [] none none none [] none

def c6nodeX : PureBranch := .mk [] [] (some (['x'], c6nodeB)) [] none none none [] none

def c6root : PureBranch := .mk [(['a'], c6nodeX)] [] none [] none none none [] none

/-- The request path `/a/V/b/W`. -/
def c6path (V W : List Char) : List Char :=
  '/' :: 'a' :: '/' :: (V ++ '/' :: 'b' :: '/' :: W)

/-- The tokens of the trimmed path `a/V/b/W` for slash-free, non-empty `V`
and `W`. -/
theorem c6_tokens (V W : List Char) (hVs : '/' ∉ V) (hVb : '\\' ∉ V)
    (hWne : W ≠ []) (hWs : '/' ∉ W) :
    Cataclysm.tokenize ('a' :: '/' :: (V ++ '/' :: 'b' :: '/' :: W)) = [['a'], V, ['b'], W] := by
  simp only [Cataclysm.tokenize, Cataclysm.tokenizeAux]
  rw [if_pos (by decide)]
  rw [Cataclysm.tokenizeAux_append V '/' [] ('b' :: '/' :: W) hVs hVb (by decide)]
  rw [show ('b' :: '/' :: W) = ['b'] ++ '/' :: W from rfl]
  rw [Cataclysm.tokenizeAux_append ['b'] '/' [] W (by decide) (by decide) (by decide)]
  rw [Cataclysm.tokenizeAux_slashState_noSlash W hWs]
  simp [List.isEmpty_iff, hWne]

/-- Resolving `/a/V/b/W` on the `/a/\x7b:x\x7d/b/\x7b:y\x7d` tree: four
segments are consumed, the variable indicators (innermost first) are
`[true, false, true, false]`. -/
theorem c6tree_ci (V W : List Char) (hVne : V ≠ []) (hVs : '/' ∉ V) (hVb : '\\' ∉ V)
    (hWne : W ≠ []) (hWs : '/' ∉ W) :
    c6root.callbackInformation (c6path V W) .Get =
      some (.ResponseHandler 7 [] [true, false, true, false]) := by
  have hleaf : PureBranch.callbackInformation c6leaf [] .Get =
      some (.ResponseHandler 7 [] []) := by
    simp [PureBranch.callbackInformation, Cataclysm.trimStartSlashes, Cataclysm.tokenizeOnce,
      lookupMethod, c6leaf, PureBranch.methodCallbacks, PureBranch.layers]
  have htrimW : Cataclysm.trimStartSlashes W = W := Cataclysm.trimStartSlashes_noSlash W hWs
  have htokW : Cataclysm.tokenizeOnce W = none := Cataclysm.tokenizeOnce_noSlash W hWs
  have hY : PureBranch.callbackInformation c6nodeY W .Get =
      some (.ResponseHandler 7 [] [true]) := by
    have hlaY : lookupAssoc c6nodeY.exactBranches W = none := rfl
    have hfindY : c6nodeY.patternBranches.find? (fun pb => pb.1.isMatch W) = none := rfl
    have hvY : c6nodeY.variableBranch = some (['y'], c6leaf) := rfl
    rw [callbackInformation_noCut c6nodeY W .Get (by rw [htrimW]; exact htokW)
      (by rw [htrimW]; exact hWne), htrimW]
    simp only [ciStep, hlaY, hfindY, hvY]
    rw [hleaf]
    rfl
  have htrimB : Cataclysm.trimStartSlashes ('b' :: '/' :: W) = 'b' :: '/' :: W :=
    Cataclysm.trimStartSlashes_cons 'b' ('/' :: W) (by decide)
  have htokB : Cataclysm.tokenizeOnce ('b' :: '/' :: W) = some (['b'], W) := by
    have := Cataclysm.tokenizeOnce_append ['b'] W (by decide) (by decide) (by decide)
    simpa using this
  have hB : PureBranch.callbackInformation c6nodeB ('b' :: '/' :: W) .Get =
      some (.ResponseHandler 7 [] [true, false]) := by
    have hlaB : lookupAssoc c6nodeB.exactBranches ['b'] = some c6nodeY := rfl
    rw [callbackInformation_cut c6nodeB ('b' :: '/' :: W) ['b'] W .Get
      (by rw [htrimB]; exact htokB)]
    simp only [ciStep, hlaB]
    rw [hY]
    rfl
  have htrimX : Cataclysm.trimStartSlashes (V ++ '/' :: 'b' :: '/' :: W) =
      V ++ '/' :: 'b' :: '/' :: W := by
    cases V with
    | nil => exact absurd rfl hVne
    | cons c t =>
      have hc : c ≠ '/' := fun h => hVs (h ▸ List.mem_cons_self c t)
      simpa using Cataclysm.trimStartSlashes_cons c (t ++ '/' :: 'b' :: '/' :: W) hc
  have htokX : Cataclysm.tokenizeOnce (V ++ '/' :: 'b' :: '/' :: W) =
      some (V, 'b' :: '/' :: W) :=
    Cataclysm.tokenizeOnce_append V ('b' :: '/' :: W) hVne hVs hVb
  have hX : PureBranch.callbackInformation c6nodeX (V ++ '/' :: 'b' :: '/' :: W) .Get =
      some (.ResponseHandler 7 [] [true, false, true]) := by
    have hlaX : lookupAssoc c6nodeX.exactBranches V = none := rfl
    have hfindX : c6nodeX.patternBranches.find? (fun pb => pb.1.isMatch V) = none := rfl
    have hvX : c6nodeX.variableBranch = some (['x'], c6nodeB) := rfl
    rw [callbackInformation_cut c6nodeX (V ++ '/' :: 'b' :: '/' :: W) V ('b' :: '/' :: W) .Get
      (by rw [htrimX]; exact htokX)]
    simp only [ciStep, hlaX, hfindX, hvX]
    rw [hB]
    rfl
  have htrimR : Cataclysm.trimStartSlashes (c6path V W) =
      'a' :: '/' :: (V ++ '/' :: 'b' :: '/' :: W) := by
    rw [c6path, Cataclysm.trimStartSlashes_cons_slash]
    exact Cataclysm.trimStartSlashes_cons 'a' _ (by decide)
  have htokR : Cataclysm.tokenizeOnce ('a' :: '/' :: (V ++ '/' :: 'b' :: '/' :: W)) =
      some (['a'], V ++ '/' :: 'b' :: '/' :: W) := by
    have := Cataclysm.tokenizeOnce_append ['a'] (V ++ '/' :: 'b' :: '/' :: W)
      (by decide) (by decide) (by decide)
    simpa using this
  have hlaR : lookupAssoc c6root.exactBranches ['a'] = some c6nodeX := rfl
  rw [callbackInformation_cut c6root (c6path V W) ['a'] (V ++ '/' :: 'b' :: '/' :: W) .Get
    (by rw [htrimR]; exact htokR)]
  simp only [ciStep, hlaR]
  rw [hX]
  rfl

namespace Claims

/-! ### Claim C9: at most one variable child, left priority on merge -/

/-- C9: each node carries at most one variable child by construction (the
`variable_branch` field is an `Option`, in the source as in this model, so
every builder operation preserves the bound trivially); and `merge` keeps the
left-hand variable child, taking the right-hand one only when the left is
absent. -/
theorem c9_variable_child :
    (∀ (b1 b2 : Branch) (v : List Char × Branch), b1.variableBranch = some v →
      (b1.mergeMut b2).variableBranch = some v) ∧
    (∀ b1 b2 : Branch, b1.variableBranch = none →
      (b1.mergeMut b2).variableBranch = b2.variableBranch) ∧
    (∀ b : Branch, b.variableBranch.toList.length ≤ 1) := by
  refine ⟨?_, ?_, ?_⟩
  · intro b1 b2 v h
    obtain ⟨rex, rpat, rvar, rsrc, rmc, rdmc, rdc, rfc, rly, rsh⟩ := b2
    simp only [Branch.mergeMut]
    rw [h]
    rfl
  · intro b1 b2 h
    obtain ⟨rex, rpat, rvar, rsrc, rmc, rdmc, rdc, rfc, rly, rsh⟩ := b2
    simp only [Branch.mergeMut]
    rw [h]
    rfl
  · intro b
    cases hv : b.variableBranch <;> simp

/-! ### Claim C6: depth, variable indices and the Path extractor -/

/-- C6: resolving the route `/a/\x7b:x\x7d/b/\x7b:y\x7d` against `/a/V/b/W`
stamps `depth = 4` (the length of the variable-indicator list, one entry per
consumed segment) and `variable_indices = [1, 3]`, and the typed `Path`
extractor pulls `V` at position 0 and `W` at position 1. -/
theorem c6_depth_and_extract (V W : List Char) (hVne : V ≠ []) (hVs : '/' ∉ V)
    (hVb : '\\' ∉ V) (hVp : '%' ∉ V) (hWne : W ≠ []) (hWs : '/' ∉ W) (hWb : '\\' ∉ W)
    (hWp : '%' ∉ W) :
    c6root.pipelineOf ⟨c6path V W, .Get, 0, []⟩ =
      some ({ path := c6path V W, method := .Get, depth := 4, variableIndices := [1, 3] },
        .NormalPipeline (.Core 7)) ∧
    pathExtract { path := c6path V W, method := .Get, depth := 4, variableIndices := [1, 3] } 0 =
      some V ∧
    pathExtract { path := c6path V W, method := .Get, depth := 4, variableIndices := [1, 3] } 1 =
      some W := by
  have hci := c6tree_ci V W hVne hVs hVb hWne hWs
  have htrimR : Cataclysm.trimStartSlashes (c6path V W) =
      'a' :: '/' :: (V ++ '/' :: 'b' :: '/' :: W) := by
    rw [c6path, Cataclysm.trimStartSlashes_cons_slash]
    exact Cataclysm.trimStartSlashes_cons 'a' _ (by decide)
  have htoks := c6_tokens V W hVs hVb hWne hWs
  refine ⟨?_, ?_, ?_⟩
  · simp only [PureBranch.pipelineOf]
    rw [hci]
    rfl
  · simp only [pathExtract, htrimR, htoks]
    simp only [List.get?]
    rw [percentDecode_noPercent V hVp]
  · simp only [pathExtract, htrimR, htoks]
    simp only [List.get?]
    rw [percentDecode_noPercent W hWp]

/-- Witness for C6 at `V = alice`, `W = bob`. -/
theorem c6_depth_and_extract_witness :
    c6root.pipelineOf ⟨c6path ("alice").data ("bob").data, .Get, 0, []⟩ =
      some (⟨c6path ("alice").data ("bob").data, .Get, 4, [1, 3]⟩,
        .NormalPipeline (.Core 7)) ∧
    pathExtract ⟨c6path ("alice").data ("bob").data, .Get, 4, [1, 3]⟩ 0 =
      some ("alice").data ∧
    pathExtract ⟨c6path ("alice").data ("bob").data, .Get, 4, [1, 3]⟩ 1 =
      some ("bob").data :=
  c6_depth_and_extract ("alice").data ("bob").data (by decide) (by decide) (by decide)
    (by decide) (by decide) (by decide) (by decide) (by decide)

/-! ### Claim C4: segment matching order -/

/-- C4 counterexample: the node has an exact child `a` with an empty subtree
and a pattern child whose regex matches `a` and whose subtree carries a GET
handler. Contrary to the claim, when the exact child's subtree fails to
resolve the pattern child is NOT tried: resolution of `/a` returns `none`,
although the same tree without the exact child resolves to the pattern
child's handler. -/
theorem c4_counterexample :
    PureBranch.callbackInformation
      (.mk [(['a'], c4empty)] [(c4pat, c4handlerNode)] none [] none none none [] none)
      ['/', 'a'] .Get = none ∧
    PureBranch.callbackInformation
      (.mk [] [(c4pat, c4handlerNode)] none [] none none none [] none)
      ['/', 'a'] .Get = some (.ResponseHandler 5 [] [true]) := by
  have hempty : PureBranch.callbackInformation c4empty [] .Get = none := by
    simp [PureBranch.callbackInformation, Cataclysm.trimStartSlashes, Cataclysm.tokenizeOnce,
      lookupMethod, c4empty, PureBranch.methodCallbacks, PureBranch.defaultMethodCallback,
      PureBranch.defaultCallback, PureBranch.streamHandler]
  have hhand : PureBranch.callbackInformation c4handlerNode [] .Get =
      some (.ResponseHandler 5 [] []) := by
    simp [PureBranch.callbackInformation, Cataclysm.trimStartSlashes, Cataclysm.tokenizeOnce,
      lookupMethod, c4handlerNode, PureBranch.methodCallbacks, PureBranch.layers]
  have ht : Cataclysm.trimStartSlashes ['/', 'a'] = ['a'] := rfl
  have htok : Cataclysm.tokenizeOnce ['a'] = none := rfl
  constructor
  · have hla : lookupAssoc (PureBranch.mk [(['a'], c4empty)] [(c4pat, c4handlerNode)]
        none [] none none none [] none).exactBranches ['a'] = some c4empty := rfl
    simp only [PureBranch.callbackInformation, ht, htok]
    rw [if_neg (by decide)]
    simp only [ciStep, hla]
    rw [hempty]
    rfl
  · have hla2 : lookupAssoc (PureBranch.mk [] [(c4pat, c4handlerNode)]
        none [] none none none [] none).exactBranches ['a'] = none := rfl
    have hfind : (PureBranch.mk [] [(c4pat, c4handlerNode)]
        none [] none none none [] none).patternBranches.find?
        (fun pb => pb.1.isMatch ['a']) = some (c4pat, c4handlerNode) := rfl
    simp only [PureBranch.callbackInformation, ht, htok]
    rw [if_neg (by decide)]
    simp only [ciStep, hla2, hfind]
    rw [hhand]
    rfl

/-- C4 (amended): an existing exact child for the head segment is followed
EXCLUSIVELY — when its subtree fails to resolve, the pattern and variable
children are not consulted (pruning them does not change the result); when
there is no exact child, only the FIRST pattern child whose regex matches the
head is followed (pruning the pattern list to that hit does not change the
result, so later patterns are never consulted even when the chosen subtree
fails, though the variable child still is); when no pattern matches, only the
variable child is consulted. -/
theorem c4_matching_order (ex : List (List Char × PureBranch))
    (pats : List (Pat × PureBranch)) (vb : Option (List Char × PureBranch))
    (mc : List (Method × Nat)) (dmc dc fc : Option Nat) (ly : List Nat) (sh : Option Nat)
    (trail base rest : List Char) (m : Method) :
    ((∃ b, lookupAssoc ex base = some b) →
      ciStep (.mk ex pats vb mc dmc dc fc ly sh) trail base rest m =
      ciStep (.mk ex [] none mc dmc dc fc ly sh) trail base rest m) ∧
    (lookupAssoc ex base = none →
      ∀ p, pats.find? (fun pb => pb.1.isMatch base) = some p →
      ciStep (.mk ex pats vb mc dmc dc fc ly sh) trail base rest m =
      ciStep (.mk ex [p] vb mc dmc dc fc ly sh) trail base rest m) ∧
    (lookupAssoc ex base = none →
      pats.find? (fun pb => pb.1.isMatch base) = none →
      ciStep (.mk ex pats vb mc dmc dc fc ly sh) trail base rest m =
      ciStep (.mk ex [] vb mc dmc dc fc ly sh) trail base rest m) := by
  refine ⟨?_, ?_, ?_⟩
  · rintro ⟨b, hb⟩
    simp only [ciStep, PureBranch.exactBranches, PureBranch.layers, PureBranch.filesCallback,
      PureBranch.defaultCallback, hb]
  · intro hnone p hp
    have hmatch : p.1.isMatch base = true := by
      have := List.find?_some hp
      simpa using this
    simp only [ciStep, PureBranch.exactBranches, PureBranch.patternBranches, PureBranch.layers,
      PureBranch.filesCallback, PureBranch.defaultCallback, PureBranch.variableBranch, hnone, hp,
      List.find?, hmatch]
  · intro hnone hfind
    simp only [ciStep, PureBranch.exactBranches, PureBranch.patternBranches, PureBranch.layers,
      PureBranch.filesCallback, PureBranch.defaultCallback, PureBranch.variableBranch, hnone,
      hfind, List.find?]

/-- Witness for C4 at concrete one-step trees covering all three branches of
the amended statement. -/
theorem c4_matching_order_witness :
    (ciStep (.mk [(['a'], c4empty)] [(c4pat, c4handlerNode)] none [] none none none [] none)
        ['a'] ['a'] [] .Get =
      ciStep (.mk [(['a'], c4empty)] [] none [] none none none [] none) ['a'] ['a'] [] .Get) ∧
    (ciStep (.mk [] [(c4pat, c4handlerNode)] none [] none none none [] none)
        ['a'] ['a'] [] .Get =
      ciStep (.mk [] [(c4pat, c4handlerNode)] none [] none none none [] none)
        ['a'] ['a'] [] .Get) ∧
    (ciStep (.mk [] [(c4pat, c4handlerNode)] none [] none none none [] none)
        ['b'] ['b'] [] .Get =
      ciStep (.mk [] [] none [] none none none [] none) ['b'] ['b'] [] .Get) :=
  ⟨(c4_matching_order [(['a'], c4empty)] [(c4pat, c4handlerNode)] none [] none none none []
      none ['a'] ['a'] [] .Get).1 ⟨c4empty, rfl⟩,
    (c4_matching_order [] [(c4pat, c4handlerNode)] none [] none none none []
      none ['a'] ['a'] [] .Get).2.1 rfl (c4pat, c4handlerNode) rfl,
    (c4_matching_order [] [(c4pat, c4handlerNode)] none [] none none none []
      none ['b'] ['b'] [] .Get).2.2 rfl rfl⟩

/-! ### Claim C1: layer execution order -/

/-- C1 counterexample: with registration order `l1a = 1` before `l1b = 2` at
the outer node and `l2a = 3` at the inner node, the pipeline built for `/n2`
is `Layer 2 (Layer 1 (Layer 3 (Core 7)))`: the request passes through `l1b`,
then `l1a`, then `l2a` — NOT through `l1a` first as the claim states, because
the fold in `PureBranch::pipeline` makes the last collected layer the
outermost one. -/
theorem c1_counterexample :
    (c1treeGen 1 2 3 7).pipelineOf ⟨['/', 'n', '2'], .Get, 0, []⟩ =
      some (⟨['/', 'n', '2'], .Get, 1, []⟩,
        .NormalPipeline (.Layer 2 (.Layer 1 (.Layer 3 (.Core 7))))) ∧
    Pipeline.layerTrace (.Layer 2 (.Layer 1 (.Layer 3 (.Core 7)))) ≠ [1, 2, 3] := by
  constructor
  · have hci := c1tree_ci 1 2 3 7
    simp only [PureBranch.pipelineOf]
    rw [hci]
    rfl
  · decide

/-- C1 (amended): outer nodes wrap inner nodes, but within a single node the
LAST layer registered at that node is the outermost; for the outer node N1
carrying `[l1a, l1b]` and the inner node N2 carrying `[l2a]`, a request routed
to N2 passes through `l1b`, then `l1a`, then `l2a`, then the handler; in
general the pipeline traverses the collected layer list in reverse. -/
theorem c1_layer_order (l1a l1b l2a h : Nat) :
    (c1treeGen l1a l1b l2a h).pipelineOf ⟨['/', 'n', '2'], .Get, 0, []⟩ =
      some (⟨['/', 'n', '2'], .Get, 1, []⟩,
        .NormalPipeline (.Layer l1b (.Layer l1a (.Layer l2a (.Core h))))) ∧
    Pipeline.layerTrace (.Layer l1b (.Layer l1a (.Layer l2a (.Core h)))) =
      [l1b, l1a, l2a] ∧
    Pipeline.coreHandler (.Layer l1b (.Layer l1a (.Layer l2a (.Core h)))) = h ∧
    ∀ cb ls, (buildPipeline cb ls).layerTrace = ls.reverse := by
  refine ⟨?_, rfl, rfl, fun cb ls => buildPipeline_layerTrace cb ls⟩
  have hci := c1tree_ci l1a l1b l2a h
  simp only [PureBranch.pipelineOf]
  rw [hci]
  rfl

/-- Witness for C9 at two concrete one-node branches. -/
theorem c9_variable_child_witness :
    ((Branch.mk [] [] (some (['x'], emptyBranch [])) [] [] none none none [] none).mergeMut
      (Branch.mk [] [] (some (['y'], emptyBranch [])) [] [] none none none [] none)).variableBranch =
      some (['x'], emptyBranch []) :=
  c9_variable_child.1 _ _ _ rfl

end Claims

end CataclysmBranch

namespace CataclysmHttp

/-- One probe of the header-end loop in `RequestHeader::parse`: the loop pairs
`source[idx]` with `source[idx + 2]` (so it only runs while `idx + 2` is in
bounds) and fires when both are `\n`, `idx > 0`, and `source[idx - 1]` and
`source[idx + 1]` are `\r`. -/
def headerEndCond (source : List Nat) (idx : Nat) : Bool :=
  decide (source.get? idx = some 10) && decide (source.get? (idx + 2) = some 10) &&
    decide (0 < idx) && decide (source.get? (idx - 1) = some 13) &&
    decide (source.get? (idx + 1) = some 13)

/-- The `split_index` search of `RequestHeader::parse`: the first index where
the loop fires. -/
def findHeaderEnd (source : List Nat) : Option Nat :=
  (List.range source.length).find? (headerEndCond source)

/-- First position of the four-byte window `\r\n\r\n`. -/
def findSeq4 : List Nat → Option Nat
  | [] => none
  | c :: rest =>
    if c = 13 ∧ rest.take 3 = [10, 13, 10] then some 0
    else (findSeq4 rest).map (· + 1)

theorem findSeq4_cons_ne (c : Nat) (rest : List Nat) (hc : c ≠ 13) :
    findSeq4 (c :: rest) = (findSeq4 rest).map (· + 1) := by
  simp only [findSeq4]
  rw [if_neg (by tauto)]

theorem findSeq4_clean_front (first rest : List Nat) (hf : 13 ∉ first) :
    findSeq4 (first ++ rest) = (findSeq4 rest).map (· + first.length) := by
  induction first with
  | nil => cases h : findSeq4 rest <;> simp [h]
  | cons c t ih =>
    have hc : c ≠ 13 := fun h => hf (h ▸ List.mem_cons_self c t)
    have hf' : 13 ∉ t := fun h => hf (List.mem_cons_of_mem c h)
    rw [List.cons_append, findSeq4_cons_ne c _ hc, ih hf']
    cases findSeq4 rest <;> simp
    omega

theorem findSeq4_start (X : List Nat) : findSeq4 (13 :: 10 :: 13 :: 10 :: X) = some 0 := by
  simp [findSeq4]

theorem findSeq4_cr_lf (X : List Nat) (hx : X.head? ≠ some 13) :
    findSeq4 (13 :: 10 :: X) = (findSeq4 X).map (· + 2) := by
  have h1 : ¬((13 : Nat) = 13 ∧ (10 :: X).take 3 = [10, 13, 10]) := by
    rintro ⟨-, h⟩
    cases X with
    | nil => simp at h
    | cons a t =>
      simp [List.take] at h
      exact hx (by simp [h.1])
  simp only [findSeq4]
  rw [if_neg (by simpa using h1), if_neg (by norm_num)]
  cases h : findSeq4 X <;> simp [h]

/-- The header text: a first line followed by `\r\n`-prefixed further
lines. -/
def headerText (first : List Nat) (lines : List (List Nat)) : List Nat :=
  first ++ lines.flatMap (fun l => 13 :: 10 :: l)

theorem findSeq4_headerText (first : List Nat) (lines : List (List Nat)) (body : List Nat)
    (hf : 13 ∉ first) (hl : ∀ l ∈ lines, l ≠ [] ∧ 13 ∉ l) :
    findSeq4 (headerText first lines ++ 13 :: 10 :: 13 :: 10 :: body) =
      some (headerText first lines).length := by
  induction lines generalizing first with
  | nil =>
    simp only [headerText, List.flatMap_nil, List.append_nil]
    rw [findSeq4_clean_front first _ hf, findSeq4_start]
    simp
  | cons l ls ih =>
    have hl0 := hl l (List.mem_cons_self l ls)
    have hl' : ∀ x ∈ ls, x ≠ [] ∧ 13 ∉ x := fun x hx => hl x (List.mem_cons_of_mem l hx)
    have hrw : headerText first (l :: ls) = first ++ 13 :: 10 :: headerText l ls := by
      simp [headerText]
    have hhead : (headerText l ls ++ 13 :: 10 :: 13 :: 10 :: body).head? ≠ some 13 := by
      cases l with
      | nil => exact absurd rfl hl0.1
      | cons a t =>
        have ha : a ≠ 13 := fun h => hl0.2 (h ▸ List.mem_cons_self a t)
        simp [headerText, ha]
    rw [hrw]
    rw [show (first ++ 13 :: 10 :: headerText l ls) ++ 13 :: 10 :: 13 :: 10 :: body =
      first ++ 13 :: 10 :: (headerText l ls ++ 13 :: 10 :: 13 :: 10 :: body) by simp]
    rw [findSeq4_clean_front first _ hf, findSeq4_cr_lf _ hhead, ih l hl0.2 hl']
    simp [hrw]
    omega


/-- A hit of `findSeq4` is a window occurrence, and the first one. -/
theorem findSeq4_some (l : List Nat) (p : Nat) (h : findSeq4 l = some p) :
    (l.get? p = some 13 ∧ l.get? (p + 1) = some 10 ∧ l.get? (p + 2) = some 13 ∧
      l.get? (p + 3) = some 10) ∧
    ∀ q, q < p → ¬(l.get? q = some 13 ∧ l.get? (q + 1) = some 10 ∧
      l.get? (q + 2) = some 13 ∧ l.get? (q + 3) = some 10) := by
  induction l generalizing p with
  | nil => simp [findSeq4] at h
  | cons c rest ih =>
    simp only [findSeq4] at h
    by_cases hw : c = 13 ∧ rest.take 3 = [10, 13, 10]
    · rw [if_pos hw] at h
      have hp : p = 0 := by simpa using h.symm
      subst hp
      have hrest : rest = 10 :: 13 :: 10 :: rest.drop 3 := by
        conv_lhs => rw [← List.take_append_drop 3 rest]
        rw [hw.2]
        rfl
      refine ⟨?_, fun q hq => absurd hq (by omega)⟩
      rw [hw.1, hrest]
      exact ⟨rfl, rfl, rfl, rfl⟩
    · rw [if_neg hw] at h
      cases hfr : findSeq4 rest with
      | none => rw [hfr] at h; simp at h
      | some p2 =>
        rw [hfr] at h
        have hp : p = p2 + 1 := by simpa using h.symm
        subst hp
        obtain ⟨hwin, hmin⟩ := ih p2 hfr
        refine ⟨?_, ?_⟩
        · simpa [List.get?_cons_succ, Nat.add_right_comm] using hwin
        · intro q hq hcontra
          cases q with
          | zero =>
            obtain ⟨h0, h1, h2, h3⟩ := hcontra
            apply hw
            refine ⟨by simpa using h0, ?_⟩
            rcases rest with _ | ⟨a, _ | ⟨b, _ | ⟨d, t⟩⟩⟩ <;> simp_all
          | succ q2 =>
            refine hmin q2 (by omega) ?_
            simpa [List.get?_cons_succ, Nat.add_right_comm] using hcontra


theorem find?_range'_first (p : Nat → Bool) (n : Nat) :
    ∀ (s k : Nat), s ≤ k → k < s + n → p k = true →
    (∀ j, s ≤ j → j < k → p j = false) →
    (List.range' s n).find? p = some k := by
  induction n with
  | zero => intro s k h1 h2; omega
  | succ n ih =>
    intro s k h1 h2 hp hmin
    rw [List.range'_succ]
    by_cases hs : k = s
    · subst hs
      rw [List.find?_cons_of_pos _ hp]
    · have hps : p s = false := hmin s le_rfl (by omega)
      rw [List.find?_cons_of_neg _ (by simp [hps])]
      exact ih (s + 1) k (by omega) (by omega) hp
        (fun j hj1 hj2 => hmin j (by omega) hj2)

/-- The index scan agrees with the structural first-window search: on a
buffer whose first window is at `p`, the loop fires first at `p + 1`. -/
theorem findHeaderEnd_of_findSeq4 (source : List Nat) (p : Nat)
    (h : findSeq4 source = some p) (hlen : p + 3 < source.length) :
    findHeaderEnd source = some (p + 1) := by
  obtain ⟨⟨w0, w1, w2, w3⟩, hmin⟩ := findSeq4_some source p h
  rw [findHeaderEnd, List.range_eq_range']
  apply find?_range'_first (headerEndCond source) source.length 0 (p + 1) (by omega)
    (by omega)
  · simp only [headerEndCond, Bool.and_eq_true, decide_eq_true_eq]
    refine ⟨⟨⟨⟨w1, ?_⟩, by omega⟩, ?_⟩, ?_⟩
    · simpa [Nat.add_right_comm] using w3
    · simpa using w0
    · simpa [Nat.add_right_comm] using w2
  · intro j hj1 hj2
    cases j with
    | zero => simp [headerEndCond]
    | succ q =>
      have hq2 := hmin q (by omega)
      by_contra hcond
      have hcond2 : headerEndCond source (q + 1) = true := by
        cases hc : headerEndCond source (q + 1)
        · exact absurd hc hcond
        · rfl
      simp only [headerEndCond, Bool.and_eq_true, decide_eq_true_eq] at hcond2
      obtain ⟨⟨⟨⟨c0, c1⟩, c2⟩, c3⟩, c4⟩ := hcond2
      exact hq2 ⟨by simpa using c3, c0, by simpa [Nat.add_right_comm] using c4,
        by simpa [Nat.add_right_comm] using c1⟩


/-- Lower bound for the first continuation byte of a three-byte form (RFC
3629 excludes overlong forms and surrogates). -/
def cont3Lo (b : Nat) : Nat := if b = 0xE0 then 0xA0 else 0x80

def cont3Hi (b : Nat) : Nat := if b = 0xED then 0x9F else 0xBF

/-- Bounds for the first continuation byte of a four-byte form. -/
def cont4Lo (b : Nat) : Nat := if b = 0xF0 then 0x90 else 0x80

def cont4Hi (b : Nat) : Nat := if b = 0xF4 then 0x8F else 0xBF

/-- One UTF-8 scalar value from the front: the code point and the remaining
bytes (RFC 3629: shortest forms only, no surrogates, at most U+10FFFF). -/
def utf8Step (b : Nat) (rest : List Nat) : Option (Nat × List Nat) :=
  if b < 0x80 then some (b, rest)
  else if 0xC2 ≤ b ∧ b ≤ 0xDF then
    match rest with
    | b1 :: r =>
      if 0x80 ≤ b1 ∧ b1 ≤ 0xBF then some ((b - 0xC0) * 0x40 + (b1 - 0x80), r) else none
    | [] => none
  else if 0xE0 ≤ b ∧ b ≤ 0xEF then
    match rest with
    | b1 :: b2 :: r =>
      if cont3Lo b ≤ b1 ∧ b1 ≤ cont3Hi b ∧ 0x80 ≤ b2 ∧ b2 ≤ 0xBF then
        some ((b - 0xE0) * 0x1000 + (b1 - 0x80) * 0x40 + (b2 - 0x80), r)
      else none
    | _ => none
  else if 0xF0 ≤ b ∧ b ≤ 0xF4 then
    match rest with
    | b1 :: b2 :: b3 :: r =>
      if cont4Lo b ≤ b1 ∧ b1 ≤ cont4Hi b ∧ 0x80 ≤ b2 ∧ b2 ≤ 0xBF ∧
          0x80 ≤ b3 ∧ b3 ≤ 0xBF then
        some ((b - 0xF0) * 0x40000 + (b1 - 0x80) * 0x1000 + (b2 - 0x80) * 0x40 + (b3 - 0x80), r)
      else none
    | _ => none
  else none

/-- A successful step never grows the remaining byte list. -/
theorem utf8Step_length (b : Nat) (rest : List Nat) (n : Nat) (r : List Nat)
    (h : utf8Step b rest = some (n, r)) : r.length ≤ rest.length := by
  unfold utf8Step at h
  repeat' split at h
  all_goals simp_all
  all_goals omega

/-- UTF-8 decoding as performed by `String::from_utf8`: repeatedly take one
scalar value. -/
def utf8Decode : List Nat → Option (List Char)
  | [] => some []
  | b :: rest =>
    match h : utf8Step b rest with
    | some (n, r) => (utf8Decode r).map (fun cs => Char.ofNat n :: cs)
    | none => none
termination_by l => l.length
decreasing_by
  have := utf8Step_length b rest n r h
  simp only [List.length_cons]
  omega

theorem utf8Step_ascii (b : Nat) (rest : List Nat) (hb : b < 0x80) :
    utf8Step b rest = some (b, rest) := by
  unfold utf8Step
  rw [if_pos hb]

/-- Unfolding of the decoder at an ASCII byte. -/
theorem utf8Decode_ascii_cons (b : Nat) (rest : List Nat) (hb : b < 0x80) :
    utf8Decode (b :: rest) = (utf8Decode rest).map (fun cs => Char.ofNat b :: cs) := by
  simp only [utf8Decode]
  split
  · next n r heq =>
    rw [utf8Step_ascii b rest hb] at heq
    obtain ⟨h1, h2⟩ := Prod.mk.injEq _ _ _ _ ▸ Option.some.injEq _ _ ▸ heq
    rw [h1, h2]
  · next heq =>
    rw [utf8Step_ascii b rest hb] at heq
    cases heq

/-- An ASCII character encodes to its single code-point byte. -/
theorem utf8EncodeChar_ascii (c : Char) (h : c.toNat < 128) :
    utf8EncodeChar c = [c.toNat] := by
  rw [utf8EncodeChar]
  simp only [if_pos h]

/-- Decoding inverts encoding on ASCII strings. -/
theorem utf8Decode_strBytes_ascii (s : List Char) (h : ∀ c ∈ s, c.toNat < 128) :
    utf8Decode (strBytes s) = some s := by
  induction s with
  | nil => simp [strBytes, utf8Decode]
  | cons c t ih =>
    have hc : c.toNat < 128 := h c (List.mem_cons_self c t)
    have ht : ∀ x ∈ t, x.toNat < 128 := fun x hx => h x (List.mem_cons_of_mem c hx)
    have henc : strBytes (c :: t) = c.toNat :: strBytes t := by
      show utf8EncodeChar c ++ strBytes t = _
      rw [utf8EncodeChar_ascii c hc]
      rfl
    rw [henc, utf8Decode_ascii_cons _ _ (by omega), ih ht]
    show some (Char.ofNat c.toNat :: t) = some (c :: t)
    rw [Char.ofNat_toNat]


/-- `str::split("\r\n")`: non-overlapping left-to-right splitting; the empty
string yields one empty piece. -/
def splitCRLF : List Char → List (List Char)
  | [] => [[]]
  | '\r' :: '\n' :: rest => [] :: splitCRLF rest
  | c :: rest =>
    match splitCRLF rest with
    | t :: ts => (c :: t) :: ts
    | [] => [[c]]

/-- `str::split(" ")`. -/
def splitSpace : List Char → List (List Char)
  | [] => [[]]
  | ' ' :: rest => [] :: splitSpace rest
  | c :: rest =>
    match splitSpace rest with
    | t :: ts => (c :: t) :: ts
    | [] => [[c]]

theorem splitCRLF_cons_ne (c : Char) (rest : List Char) (hc : c ≠ '\r') :
    splitCRLF (c :: rest) = match splitCRLF rest with
      | t :: ts => (c :: t) :: ts
      | [] => [[c]] := by
  match rest with
  | [] => simp [splitCRLF, hc]
  | d :: t => simp [splitCRLF, hc]

theorem splitCRLF_noCR (l : List Char) (hl : '\r' ∉ l) : splitCRLF l = [l] := by
  induction l with
  | nil => rfl
  | cons c t ih =>
    have hc : c ≠ '\r' := fun h => hl (h ▸ List.mem_cons_self c t)
    have ht : '\r' ∉ t := fun h => hl (List.mem_cons_of_mem c h)
    rw [splitCRLF_cons_ne c t hc, ih ht]

theorem splitCRLF_clean_append (a rest : List Char) (ha : '\r' ∉ a) :
    splitCRLF (a ++ '\r' :: '\n' :: rest) = a :: splitCRLF rest := by
  induction a with
  | nil => rfl
  | cons c t ih =>
    have hc : c ≠ '\r' := fun h => ha (h ▸ List.mem_cons_self c t)
    have ht : '\r' ∉ t := fun h => ha (List.mem_cons_of_mem c h)
    rw [List.cons_append, splitCRLF_cons_ne c _ hc, ih ht]

/-- Splitting the assembled header text recovers the first line and the
header lines. -/
theorem splitCRLF_structured (first : List Char) (lines : List (List Char))
    (hf : '\r' ∉ first) (hl : ∀ l ∈ lines, '\r' ∉ l) :
    splitCRLF (first ++ lines.flatMap (fun l => '\r' :: '\n' :: l)) = first :: lines := by
  induction lines generalizing first with
  | nil => simpa using splitCRLF_noCR first hf
  | cons l ls ih =>
    have hl0 : '\r' ∉ l := hl l (List.mem_cons_self l ls)
    have hl' : ∀ x ∈ ls, '\r' ∉ x := fun x hx => hl x (List.mem_cons_of_mem l hx)
    rw [show first ++ (l :: ls).flatMap (fun x => '\r' :: '\n' :: x) =
      first ++ '\r' :: '\n' :: (l ++ ls.flatMap (fun x => '\r' :: '\n' :: x)) by simp]
    rw [splitCRLF_clean_append first _ hf, ih l hl0 hl']

theorem splitSpace_cons_ne (c : Char) (rest : List Char) (hc : c ≠ ' ') :
    splitSpace (c :: rest) = match splitSpace rest with
      | t :: ts => (c :: t) :: ts
      | [] => [[c]] := by
  match rest with
  | [] => simp [splitSpace, hc]
  | d :: t => simp [splitSpace, hc]

theorem splitSpace_noSpace (l : List Char) (hl : ' ' ∉ l) : splitSpace l = [l] := by
  induction l with
  | nil => rfl
  | cons c t ih =>
    have hc : c ≠ ' ' := fun h => hl (h ▸ List.mem_cons_self c t)
    have ht : ' ' ∉ t := fun h => hl (List.mem_cons_of_mem c h)
    rw [splitSpace_cons_ne c t hc, ih ht]

theorem splitSpace_clean_append (a rest : List Char) (ha : ' ' ∉ a) :
    splitSpace (a ++ ' ' :: rest) = a :: splitSpace rest := by
  induction a with
  | nil => rfl
  | cons c t ih =>
    have hc : c ≠ ' ' := fun h => ha (h ▸ List.mem_cons_self c t)
    have ht : ' ' ∉ t := fun h => ha (List.mem_cons_of_mem c h)
    rw [List.cons_append, splitSpace_cons_ne c _ hc, ih ht]

/-- The first request line splits into exactly its three tokens. -/
theorem splitSpace_three (m p v : List Char) (hm : ' ' ∉ m) (hp : ' ' ∉ p) (hv : ' ' ∉ v) :
    splitSpace (m ++ ' ' :: p ++ ' ' :: v) = [m, p, v] := by
  rw [show m ++ ' ' :: p ++ ' ' :: v = m ++ ' ' :: (p ++ ' ' :: v) by simp]
  rw [splitSpace_clean_append m _ hm, splitSpace_clean_append p _ hp,
    splitSpace_noSpace v hv]


/-- `value.trim_start_matches(": ")`: strip every leading repetition of the
two-character pattern. -/
def trimColonSpace : List Char → List Char
  | ':' :: ' ' :: rest => trimColonSpace rest
  | l => l

/-- `str::trim_end` (the buffers considered here only carry ASCII
whitespace). -/
def trimEnd (l : List Char) : List Char :=
  (l.reverse.dropWhile (fun c => c.isWhitespace)).reverse

/-- `From<A> for Method` (src/src/http/method.rs; the cataclysm crate
re-exports the same conversion): known verbs in either case, any other token
becomes `Custom`. -/
def methodFromChars (s : List Char) : CataclysmBranch.Method :=
  if s = ("GET").data ∨ s = ("get").data then .Get
  else if s = ("POST").data ∨ s = ("post").data then .Post
  else if s = ("PUT").data ∨ s = ("put").data then .Put
  else if s = ("HEAD").data ∨ s = ("head").data then .Head
  else if s = ("DELETE").data ∨ s = ("delete").data then .Delete
  else if s = ("PATCH").data ∨ s = ("patch").data then .Patch
  else if s = ("OPTIONS").data ∨ s = ("options").data then .Options
  else if s = ("TRACE").data ∨ s = ("trace").data then .Trace
  else if s = ("CONNECT").data ∨ s = ("connect").data then .Connect
  else .Custom s

/-- The header-line loop body: `line.find(":")`, `split_at`, then the value
cleanup. -/
def parseHeaderLine (line : List Char) : Option (List Char × List Char) :=
  match line.findIdx? (fun c => c = ':') with
  | none => none
  | some idx => some (line.take idx, trimEnd (trimColonSpace (line.drop idx)))

/-- The header-line loop: entry/or-insert/push per line, failing on a line
without a colon. -/
def parseHeaderLines : List (List Char) → List (List Char × List (List Char)) →
    Option (List (List Char × List (List Char)))
  | [], acc => some acc
  | line :: rest, acc =>
    match parseHeaderLine line with
    | none => none
    | some (k, v) => parseHeaderLines rest (entryPush acc k v)

/-- The `url` crate collaborator, modelled as the synthesized absolute URL
string `http://` + host + path that `RequestHeader::parse` feeds to
`Url::parse`. -/
def urlOf (host path : List Char) : List Char := ("http://").data ++ host ++ path

/-- `struct RequestHeader` (the socket address is not modelled). -/
structure RequestHeader where
  method : CataclysmBranch.Method
  url : List Char
  variableIndices : List Nat
  depth : Nat
  headers : List (List Char × List (List Char))
  headerSize : Nat
deriving DecidableEq

def hostKey : List Char := ("Host").data

/-- `RequestHeader::parse`: find the header end, split off the header bytes,
decode them, split the first line into exactly three tokens, parse the header
lines, check the protocol, and synthesize the URL (falling back to the host
`missing.host` when no Host header is present); returns the header together
with the remaining body bytes left in `source`. -/
def parseRequestHeader (source : List Nat) : Option (RequestHeader × List Nat) :=
  match findHeaderEnd source with
  | none => none
  | some idx =>
    let headerBytes := source.take (idx - 1)
    let body := source.drop (idx + 3)
    match utf8Decode headerBytes with
    | none => none
    | some headerString =>
      match splitCRLF headerString with
      | [] => none
      | firstLine :: headerLines =>
        match splitSpace firstLine with
        | [mt, pt, vt] =>
          match parseHeaderLines headerLines [] with
          | none => none
          | some headers =>
            if vt.take 4 = ("HTTP").data then
              let host := match lookupHeader headers hostKey with
                | some (v :: _) => v
                | some [] => ("missing.host").data
                | none => ("missing.host").data
              some ({ method := methodFromChars mt, url := urlOf host pt,
                      variableIndices := [], depth := 0, headers := headers,
                      headerSize := headerBytes.length + 4 }, body)
            else none
        | _ => none


/-- Pushing an entry under a different key does not affect a lookup. -/
theorem lookupHeader_entryPush_ne (hs : List (List Char × List (List Char)))
    (k k2 : List Char) (v : List Char) (hne : k2 ≠ k) :
    lookupHeader (entryPush hs k2 v) k = lookupHeader hs k := by
  induction hs with
  | nil => simp [entryPush, lookupHeader, hne]
  | cons kv rest ih =>
    obtain ⟨k0, vs⟩ := kv
    by_cases h : k0 = k2
    · subst h
      simp [entryPush, lookupHeader, hne]
    · by_cases h2 : k0 = k
      · simp [entryPush, lookupHeader, h, h2, Ne.symm hne]
      · simp [entryPush, lookupHeader, h, h2, ih]

/-- When every line has a colon and no key equals `k`, the loop succeeds and
the result has no entry under `k`. -/
theorem parseHeaderLines_ok (L : List (List Char)) :
    ∀ acc, (∀ l ∈ L, ∃ i, l.findIdx? (fun c => c = ':') = some i ∧ l.take i ≠ hostKey) →
    lookupHeader acc hostKey = none →
    ∃ H, parseHeaderLines L acc = some H ∧ lookupHeader H hostKey = none := by
  induction L with
  | nil => exact fun acc _ hacc => ⟨acc, rfl, hacc⟩
  | cons l L2 ih =>
    intro acc hL hacc
    obtain ⟨i, hi, hk⟩ := hL l (List.mem_cons_self l L2)
    have hL' : ∀ x ∈ L2, ∃ i, x.findIdx? (fun c => c = ':') = some i ∧ x.take i ≠ hostKey :=
      fun x hx => hL x (List.mem_cons_of_mem l hx)
    have hstep : parseHeaderLines (l :: L2) acc =
        parseHeaderLines L2 (entryPush acc (l.take i) (trimEnd (trimColonSpace (l.drop i)))) := by
      simp only [parseHeaderLines, parseHeaderLine, hi]
    rw [hstep]
    exact ih _ hL' (by rw [lookupHeader_entryPush_ne _ _ _ _ hk]; exact hacc)


theorem char_toNat_inj (a b : Char) (h : a.toNat = b.toNat) : a = b := by
  have h2 : Char.ofNat a.toNat = Char.ofNat b.toNat := congrArg Char.ofNat h
  rwa [Char.ofNat_toNat, Char.ofNat_toNat] at h2

theorem strBytes_append (a b : List Char) : strBytes (a ++ b) = strBytes a ++ strBytes b := by
  simp [strBytes]

/-- ASCII strings encode byte-per-character. -/
theorem strBytes_ascii (s : List Char) (h : ∀ c ∈ s, c.toNat < 128) :
    strBytes s = s.map Char.toNat := by
  induction s with
  | nil => rfl
  | cons c t ih =>
    have hc := h c (List.mem_cons_self c t)
    have ht : ∀ x ∈ t, x.toNat < 128 := fun x hx => h x (List.mem_cons_of_mem c hx)
    show utf8EncodeChar c ++ strBytes t = _
    rw [utf8EncodeChar_ascii c hc, ih ht]
    rfl

theorem strBytes_no13 (s : List Char) (hA : ∀ c ∈ s, c.toNat < 128) (hR : '\r' ∉ s) :
    13 ∉ strBytes s := by
  rw [strBytes_ascii s hA]
  intro hmem
  obtain ⟨c, hc, hct⟩ := List.mem_map.mp hmem
  exact hR (by rwa [char_toNat_inj c '\r' hct] at hc)

theorem strBytes_ne_nil (s : List Char) (hs : s ≠ []) : strBytes s ≠ [] := by
  cases s with
  | nil => exact absurd rfl hs
  | cons c t =>
    show utf8EncodeChar c ++ strBytes t ≠ []
    have : utf8EncodeChar c ≠ [] := by
      rw [utf8EncodeChar]
      split
      · simp
      · split
        · simp
        · split
          · simp
          · simp
    simp [this]

/-- The encoded header text is the byte-level header text of the encoded
pieces. -/
theorem strBytes_headerText (first : List Char) (L : List (List Char)) :
    strBytes (first ++ L.flatMap (fun l => '\r' :: '\n' :: l)) =
      headerText (strBytes first) (L.map strBytes) := by
  rw [strBytes_append, headerText]
  congr 1
  induction L with
  | nil => rfl
  | cons l ls ih =>
    rw [List.flatMap_cons, List.map_cons, List.flatMap_cons, strBytes_append, ih]
    congr 1


namespace Claims

set_option maxHeartbeats 1000000 in
/-- C10: request-header parsing does not require a Host header: for every
buffer assembled from a well-formed ASCII first line `m p v` (tokens without
spaces or carriage returns, `v` starting with `HTTP`) and well-formed header
lines (non-empty, colon-carrying, no carriage returns) none of whose keys is
`Host`, parsing succeeds and the synthesized URL is
`http://missing.host` + path; the body bytes after the `\r\n\r\n`
terminator are left in the source. -/
theorem c10_missing_host (m p v : List Char) (L : List (List Char)) (body : List Nat)
    (hmS : ' ' ∉ m) (hmR : '\r' ∉ m) (hmA : ∀ c ∈ m, c.toNat < 128)
    (hpS : ' ' ∉ p) (hpR : '\r' ∉ p) (hpA : ∀ c ∈ p, c.toNat < 128)
    (hvS : ' ' ∉ v) (hvR : '\r' ∉ v) (hvA : ∀ c ∈ v, c.toNat < 128)
    (hvH : v.take 4 = ("HTTP").data)
    (hL : ∀ l ∈ L, l ≠ [] ∧ '\r' ∉ l ∧ (∀ c ∈ l, c.toNat < 128) ∧
      ∃ i, l.findIdx? (fun c => c = ':') = some i ∧ l.take i ≠ hostKey) :
    ∃ H, parseRequestHeader
        (strBytes ((m ++ ' ' :: p ++ ' ' :: v) ++ L.flatMap (fun l => '\r' :: '\n' :: l))
          ++ 13 :: 10 :: 13 :: 10 :: body) =
      some ({ method := methodFromChars m, url := urlOf (("missing.host").data) p,
              variableIndices := [], depth := 0, headers := H,
              headerSize := (strBytes ((m ++ ' ' :: p ++ ' ' :: v) ++
                L.flatMap (fun l => '\r' :: '\n' :: l))).length + 4 }, body) ∧
      lookupHeader H hostKey = none := by
  set first := m ++ ' ' :: p ++ ' ' :: v with hfirst
  set T := first ++ L.flatMap (fun l => '\r' :: '\n' :: l) with hT
  have hfirstR : '\r' ∉ first := by
    simp only [hfirst, List.mem_append, List.mem_cons, not_or]
    exact ⟨⟨hmR, by decide, hpR⟩, by decide, hvR⟩
  have hfirstA : ∀ c ∈ first, c.toNat < 128 := by
    intro c hc
    simp only [hfirst, List.mem_append, List.mem_cons] at hc
    rcases hc with (h | h | h) | h | h
    · exact hmA c h
    · subst h; decide
    · exact hpA c h
    · subst h; decide
    · exact hvA c h
  have hTA : ∀ c ∈ T, c.toNat < 128 := by
    intro c hc
    simp only [hT, List.mem_append] at hc
    rcases hc with h | h
    · exact hfirstA c h
    · obtain ⟨l, hl1, hl2⟩ := List.mem_flatMap.mp h
      rcases List.mem_cons.mp hl2 with h2 | h2
      · subst h2; decide
      · rcases List.mem_cons.mp h2 with h3 | h3
        · subst h3; decide
        · exact (hL l hl1).2.2.1 c h3
  have hBT : strBytes T = headerText (strBytes first) (L.map strBytes) :=
    strBytes_headerText first L
  have hbf13 : 13 ∉ strBytes first := strBytes_no13 first hfirstA hfirstR
  have hbl : ∀ bl ∈ L.map strBytes, bl ≠ [] ∧ 13 ∉ bl := by
    intro bl hblm
    obtain ⟨l, hl1, rfl⟩ := List.mem_map.mp hblm
    obtain ⟨hne, hR, hA, -⟩ := hL l hl1
    exact ⟨strBytes_ne_nil l hne, strBytes_no13 l hA hR⟩
  set source := strBytes T ++ 13 :: 10 :: 13 :: 10 :: body with hsource
  have hlen4 : source.length = (strBytes T).length + 4 + body.length := by
    simp only [hsource, List.length_append, List.length_cons]
    omega
  have hfs : findSeq4 source = some (strBytes T).length := by
    rw [hsource, hBT]
    exact findSeq4_headerText (strBytes first) (L.map strBytes) body hbf13 hbl
  have hfhe : findHeaderEnd source = some ((strBytes T).length + 1) :=
    findHeaderEnd_of_findSeq4 source _ hfs (by omega)
  have htake : source.take ((strBytes T).length + 1 - 1) = strBytes T := by
    simp only [Nat.add_sub_cancel]
    rw [hsource]
    exact List.take_left _ _
  have hdrop : source.drop ((strBytes T).length + 1 + 3) = body := by
    rw [hsource,
      show (strBytes T).length + 1 + 3 = (strBytes T ++ [13, 10, 13, 10]).length by simp,
      show strBytes T ++ 13 :: 10 :: 13 :: 10 :: body =
        (strBytes T ++ [13, 10, 13, 10]) ++ body by simp]
    exact List.drop_left _ _
  have hdec : utf8Decode (strBytes T) = some T := utf8Decode_strBytes_ascii T hTA
  have hsplit : splitCRLF T = first :: L := by
    rw [hT]
    exact splitCRLF_structured first L hfirstR (fun l hl2 => (hL l hl2).2.1)
  have htok : splitSpace first = [m, p, v] := by
    rw [hfirst]
    exact splitSpace_three m p v hmS hpS hvS
  obtain ⟨H, hH, hHnone⟩ := parseHeaderLines_ok L [] (fun l hl2 => (hL l hl2).2.2.2) rfl
  refine ⟨H, ?_, hHnone⟩
  simp only [parseRequestHeader, hfhe]
  rw [htake, hdrop, hdec]
  simp only [hsplit, htok, hH]
  rw [if_pos hvH]
  rw [hHnone]


/-- Witness for C10: `GET /a HTTP/1.1` with a single `X-Key: 1` header line
and one body byte. -/
theorem c10_missing_host_witness :
    ∃ H, parseRequestHeader
        (strBytes ((("GET").data ++ ' ' :: ("/a").data ++ ' ' :: ("HTTP/1.1").data) ++
          [("X-Key: 1").data].flatMap (fun l => '\r' :: '\n' :: l))
          ++ 13 :: 10 :: 13 :: 10 :: [42]) =
      some ({ method := methodFromChars ("GET").data,
              url := urlOf (("missing.host").data) ("/a").data,
              variableIndices := [], depth := 0, headers := H,
              headerSize := (strBytes ((("GET").data ++ ' ' :: ("/a").data ++
                ' ' :: ("HTTP/1.1").data) ++
                [("X-Key: 1").data].flatMap (fun l => '\r' :: '\n' :: l))).length + 4 }, [42]) ∧
      lookupHeader H hostKey = none :=
  c10_missing_host ("GET").data ("/a").data ("HTTP/1.1").data [("X-Key: 1").data] [42]
    (by decide) (by decide) (by decide) (by decide) (by decide) (by decide)
    (by decide) (by decide) (by decide) (by decide)
    (by intro l hl
        simp only [List.mem_singleton] at hl
        subst hl
        exact ⟨by decide, by decide, by decide, 5, rfl, by decide⟩)

end Claims

end CataclysmHttp
